import Mathlib

/-!
Verification of the xycore tamper-evident chain library.

Shallow embedding of `src/xycore` (crypto.py, redact.py, signature.py,
entry.py, chain.py).  Python state dictionaries become the inductive type
`State`; `json.dumps(state, sort_keys=True, separators=(",", ":"))` becomes
the executable serializer `dumps`; SHA-256 (`hashlib.sha256(...).hexdigest()`)
is modelled as a function parameter `H : String → String`, since every claim
about it either holds for all `H` or needs an explicit collision-freeness
hypothesis.  Python float timestamps are carried as the string produced by
`str(timestamp)` (which is injective on floats), because the code only ever
uses the timestamp through f-string interpolation.
-/

set_option maxHeartbeats 1000000

namespace XYCore

/-- A JSON-like Python value: the shape of state dictionaries.  Python dict
keys in the source are strings (non-string keys never occur in the library);
numbers are modelled by the integer fragment, which is all the repository's
own code and tests use. -/
inductive State where
  | null : State
  | bool (b : Bool) : State
  | num (n : Int) : State
  | str (s : String) : State
  | arr (xs : List State) : State
  | obj (kvs : List (String × State)) : State

/-- Four lowercase hex digits, as in Python json \uXXXX escapes. -/
def hex4 (n : Nat) : String :=
  let dig := fun (d : Nat) =>
    if d < 10 then Char.ofNat (48 + d) else Char.ofNat (87 + d)
  String.mk [dig (n / 4096 % 16), dig (n / 256 % 16), dig (n / 16 % 16), dig (n % 16)]

/-- One character of a JSON string, escaped the way `json.dumps` does with
its default `ensure_ascii=True`: printable ASCII other than quote and
backslash passes through, control characters use the short escapes or
\uXXXX, and every non-ASCII character is escaped (with a surrogate pair
above U+FFFF). -/
def escChar (c : Char) : String :=
  if c = '"' then "\\\""
  else if c = '\\' then "\\\\"
  else if c = '\n' then "\\n"
  else if c = '\t' then "\\t"
  else if c = '\r' then "\\r"
  else if c = Char.ofNat 8 then "\\b"
  else if c = Char.ofNat 12 then "\\f"
  else if c.toNat < 32 then "\\u" ++ hex4 c.toNat
  else if c.toNat < 127 then String.singleton c
  else if c.toNat ≤ 65535 then "\\u" ++ hex4 c.toNat
  else
    let n := c.toNat - 65536
    "\\u" ++ hex4 (55296 + n / 1024) ++ "\\u" ++ hex4 (56320 + n % 1024)

/-- A JSON string literal: quotes around the escaped characters. -/
def encStr (s : String) : String :=
  "\"" ++ String.join (s.data.map escChar) ++ "\""

/-- Ordering used by `json.dumps(sort_keys=True)` on rendered object items:
it sorts the items of each dict by key (Python compares keys with `<`, which
is code-point lexicographic, matching the `String` order used here; a real
dict never has two equal keys, so the value part of Python's tuple
comparison is never consulted). -/
def leKey (a b : String × String) : Prop := a.1 ≤ b.1

instance : DecidableRel leKey := fun a b => inferInstanceAs (Decidable (a.1 ≤ b.1))

instance : IsTotal (String × String) leKey := ⟨fun a b => le_total a.1 b.1⟩

instance : IsTrans (String × String) leKey := ⟨fun _ _ _ h1 h2 => le_trans h1 h2⟩

/-- Comma-join, as produced by the compact separators `(",", ":")`. -/
def joinComma : List String → String
  | [] => ""
  | [s] => s
  | s :: rest => s ++ "," ++ joinComma rest

mutual

/-- `json.dumps(state, sort_keys=True, separators=(",", ":"))`.
For an object the source sorts the items by key and then renders them;
here each item is rendered to `(key, "key":value)` first and the rendered
items are sorted by the same key — identical output, because the
comparison reads only the key, which rendering keeps alongside. -/
def dumps : State → String
  | .null => "null"
  | .bool b => if b then "true" else "false"
  | .num n => toString n
  | .str s => encStr s
  | .arr xs => "[" ++ joinComma (dumpsList xs) ++ "]"
  | .obj kvs =>
    "\x7b" ++ joinComma (((dumpsPairs kvs).insertionSort leKey).map Prod.snd) ++ "\x7d"

/-- Renders each array element. -/
def dumpsList : List State → List String
  | [] => []
  | x :: xs => dumps x :: dumpsList xs

/-- Renders each object item, keeping its key for sorting. -/
def dumpsPairs : List (String × State) → List (String × String)
  | [] => []
  | (k, v) :: rest => (k, encStr k ++ ":" ++ dumps v) :: dumpsPairs rest

end

/-- Ordering of raw object items by key, for `canon` below. -/
def lePair (a b : String × State) : Prop := a.1 ≤ b.1

instance : DecidableRel lePair := fun a b => inferInstanceAs (Decidable (a.1 ≤ b.1))

instance : IsTotal (String × State) lePair := ⟨fun a b => le_total a.1 b.1⟩

instance : IsTrans (String × State) lePair := ⟨fun _ _ _ h1 h2 => le_trans h1 h2⟩

/-- Strict version of `lePair`, used to show sorted nodup-key lists agree. -/
def ltPair (a b : String × State) : Prop := a.1 < b.1

instance : IsAntisymm (String × State) ltPair :=
  ⟨fun _ _ h1 h2 => absurd h2 (lt_asymm h1)⟩

mutual

/-- The canonical representative of a `State`: every object's item list is
sorted by key, recursively.  Two map representations of the same logical
state (same key/value pairs in any insertion order, at every nesting level)
have the same `canon` image whenever keys are duplicate-free, which is the
notion of semantic equality used in the spec. -/
def canon : State → State
  | .null => .null
  | .bool b => .bool b
  | .num n => .num n
  | .str s => .str s
  | .arr xs => .arr (canonList xs)
  | .obj kvs => .obj ((canonPairs kvs).insertionSort lePair)

def canonList : List State → List State
  | [] => []
  | x :: xs => canon x :: canonList xs

def canonPairs : List (String × State) → List (String × State)
  | [] => []
  | (k, v) :: rest => (k, canon v) :: canonPairs rest

end

/-- `crypto.hash_state`: SHA-256 hex digest of the canonical JSON encoding.
`H` stands for `hashlib.sha256(utf8(·)).hexdigest()`. -/
def hash_state (H : String → String) (state : State) : String :=
  H (dumps state)

/-- `crypto.compute_xy`: the proof hash `xy_{sha256_hex}` over
`f"{x}:{operation}:{y}:{timestamp}"`.  `ts` is the `str()` image of the
float timestamp. -/
def compute_xy (H : String → String) (x operation y ts : String) : String :=
  "xy_" ++ H (x ++ ":" ++ operation ++ ":" ++ y ++ ":" ++ ts)

/-- The genesis sentinel (`chain.GENESIS`). -/
def GENESIS : String := "GENESIS"

/-- `entry.XYEntry`.  `timestamp` carries `str(timestamp)`; the five
trailing `Option` fields are `None`-able in the source. -/
structure XYEntry where
  index : Nat
  timestamp : String
  operation : String
  x : String
  y : String
  xy : String
  x_state : Option State
  y_state : Option State
  status : String
  verified : Bool
  metadata : List (String × State)
  signature : Option String
  signer_id : Option String
  public_key : Option String

/-- `crypto.verify_entry`: the stored proof hash must be reproducible from
the current field values. -/
def verify_entry (H : String → String) (e : XYEntry) : Bool :=
  e.xy == compute_xy H e.x e.operation e.y e.timestamp

/-- The loop body state of `crypto.verify_chain`: `prev` is `None` at
position 0 (where the genesis check runs) and carries `entries[i-1].y`
afterwards, exactly the value the source reads back from the list. -/
def verifyChainAux (H : String → String) (prev : Option String) (i : Nat) :
    List XYEntry → Bool × Option Nat
  | [] => (true, none)
  | e :: rest =>
    if verify_entry H e then
      match prev with
      | none =>
        if e.x = GENESIS then verifyChainAux H (some e.y) (i + 1) rest
        else (false, some i)
      | some py =>
        if e.x = py then verifyChainAux H (some e.y) (i + 1) rest
        else (false, some i)
    else (false, some i)

/-- `crypto.verify_chain`: single forward pass, returning `(True, None)` or
`(False, break_index)` at the first violation. -/
def verify_chain (H : String → String) (entries : List XYEntry) : Bool × Option Nat :=
  verifyChainAux H none 0 entries

/-- `XYEntry.create`: computes the proof hash at construction time and
claims `verified = True`.  The `timestamp` argument is the caller-supplied
value or the ambient `time.time()`; `metadata or {}` becomes `getD []`. -/
def XYEntry.create (H : String → String) (index : Nat) (operation x y : String)
    (x_state y_state : Option State) (status : String)
    (metadata : Option (List (String × State))) (ts : String) : XYEntry :=
  { index := index
    timestamp := ts
    operation := operation
    x := x
    y := y
    xy := compute_xy H x operation y ts
    x_state := x_state
    y_state := y_state
    status := status
    verified := true
    metadata := metadata.getD []
    signature := none
    signer_id := none
    public_key := none }


/-!  ## Redaction (redact.py)

The eleven key patterns and eighteen value patterns of `redact.py` use only
these regex constructs: literals, character classes, `+`, `*`, `*?`,
`{16}`, optional groups and alternation of groups.  `RElem` models exactly
those; matching enumerates candidate remainders in Python's backtracking
preference order (greedy quantifiers longest-first, lazy shortest-first,
alternation left branch first), and substitution scans for leftmost
non-overlapping matches exactly as `re.sub` does. -/

/-- One element of a regular expression, in the fragment `redact.py` uses. -/
inductive RElem where
  | lit (c : Char) : RElem
  | cls (f : Char → Bool) : RElem
  | plus (f : Char → Bool) : RElem
  | star (f : Char → Bool) : RElem
  | lazystar (f : Char → Bool) : RElem
  | rep (f : Char → Bool) (n : Nat) : RElem
  | alt (g1 g2 : List RElem) : RElem

/-- Consume exactly `n` characters of class `f` (the `{16}` quantifier). -/
def matchRep (f : Char → Bool) : Nat → List Char → Option (List Char)
  | 0, s => some s
  | _ + 1, [] => none
  | n + 1, c :: rest => if f c then matchRep f n rest else none

mutual

/-- All remainders a single element can leave, in preference order. -/
def elemMatches : RElem → List Char → List (List Char)
  | .lit _, [] => []
  | .lit c, c2 :: rest => if c2 = c then [rest] else []
  | .cls _, [] => []
  | .cls f, c :: rest => if f c then [rest] else []
  | .plus f, s =>
    let k := (s.takeWhile f).length
    (List.range k).map (fun j => s.drop (k - j))
  | .star f, s =>
    let k := (s.takeWhile f).length
    (List.range (k + 1)).map (fun j => s.drop (k - j))
  | .lazystar f, s =>
    let k := (s.takeWhile f).length
    (List.range (k + 1)).map (fun j => s.drop j)
  | .rep f n, s => match matchRep f n s with | some r => [r] | none => []
  | .alt g1 g2, s => seqMatches g1 s ++ seqMatches g2 s

/-- All remainders a sequence of elements can leave, in preference order. -/
def seqMatches : List RElem → List Char → List (List Char)
  | [], s => [s]
  | e :: rest, s => (elemMatches e s).flatMap (fun r => seqMatches rest r)

end

/-- The remainder of the preferred match of `p` at the start of `s`
(Python's backtracking engine returns exactly the first candidate). -/
def tryFrom (p : List RElem) (s : List Char) : Option (List Char) :=
  (seqMatches p s).head?

/-- `re.search`: does `p` match anywhere in the text (unanchored scan)? -/
def reSearch (p : List RElem) : List Char → Bool
  | [] => (tryFrom p []).isSome
  | c :: t => (tryFrom p (c :: t)).isSome || reSearch p t

/-- `re.sub` body: scan left to right, replace each leftmost match with the
marker and continue after it.  A zero-width match (impossible for the
patterns below, which all require at least one character) would emit the
marker and advance one character, as Python 3.7+ does.  `fuel` only
bounds the recursion; one unit per character consumed always suffices. -/
def subAllAux (p : List RElem) (marker : List Char) : Nat → List Char → List Char
  | 0, s => s
  | _ + 1, [] => []
  | fuel + 1, c :: t =>
    match tryFrom p (c :: t) with
    | none => c :: subAllAux p marker fuel t
    | some rest =>
      if rest.length = (c :: t).length then marker ++ c :: subAllAux p marker fuel t
      else marker ++ subAllAux p marker fuel rest

/-- `pattern.sub(REDACTED, s)` for one compiled pattern. -/
def subAll (p : List RElem) (s : String) : String :=
  String.mk (subAllAux p "[REDACTED]".data s.data.length s.data)

/-- `redact.REDACTED`. -/
def REDACTED : String := "[REDACTED]"

/-- `[a-zA-Z0-9]`. -/
def isAlnum (c : Char) : Bool :=
  ('a' ≤ c && c ≤ 'z') || ('A' ≤ c && c ≤ 'Z') || ('0' ≤ c && c ≤ '9')

/-- `[a-zA-Z0-9_-]`. -/
def isAlnumUnd (c : Char) : Bool := isAlnum c || c = '_' || c = '-'

/-- `[A-Z0-9]`. -/
def isUpperDigit (c : Char) : Bool := ('A' ≤ c && c ≤ 'Z') || ('0' ≤ c && c ≤ '9')

/-- `[a-zA-Z0-9-]`. -/
def isAlnumDash (c : Char) : Bool := isAlnum c || c = '-'

/-- `\s` (the ASCII fragment; the Unicode-only whitespace Python adds never
occurs in the repository's data or in any claim). -/
def isWs (c : Char) : Bool :=
  c = ' ' || c = '\t' || c = '\n' || c = '\r' || c = Char.ofNat 11 || c = Char.ofNat 12

/-- `\S`. -/
def isNonWs (c : Char) : Bool := !isWs c

/-- `[\s\S]`. -/
def anyChar (_ : Char) : Bool := true

/-- `[_-]`. -/
def underscoreDash (c : Char) : Bool := c = '_' || c = '-'

/-- A case-sensitive literal word. -/
def lits (s : String) : List RElem := s.data.map RElem.lit

/-- A literal word under `re.IGNORECASE` (the pattern text is lowercase). -/
def litsCI (s : String) : List RElem :=
  s.data.map (fun c => RElem.cls (fun c2 => c2.toLower = c))

/-- `[_-]?`. -/
def optUD : RElem := .alt [.cls underscoreDash] []

/-- `redact.SECRET_KEY_PATTERNS`, in source order (all `re.IGNORECASE`). -/
def SECRET_KEY_PATTERNS : List (List RElem) :=
  [ litsCI "password"
  , litsCI "secret"
  , litsCI "api" ++ [optUD] ++ litsCI "key"
  , litsCI "token"
  , litsCI "private" ++ [optUD] ++ litsCI "key"
  , litsCI "auth"
  , litsCI "credential"
  , litsCI "access" ++ [optUD] ++ litsCI "key"
  , litsCI "connection" ++ [optUD] ++ litsCI "string"
  , litsCI "database" ++ [optUD] ++ litsCI "url"
  , litsCI "dsn" ]

/-- The PEM block pattern with an optional algorithm word, covering both
`(?:RSA\s+)?` (pass `some "RSA"`) and the mandatory `EC\s+` (inlined). -/
def pemPattern (alg : Option String) : List RElem :=
  lits "-----BEGIN" ++ [.plus isWs]
    ++ (match alg with
        | some w => [.alt (lits w ++ [.plus isWs]) []]
        | none => [])
    ++ lits "PRIVATE" ++ [.plus isWs] ++ lits "KEY-----"
    ++ [.lazystar anyChar]
    ++ lits "-----END" ++ [.plus isWs]
    ++ (match alg with
        | some w => [.alt (lits w ++ [.plus isWs]) []]
        | none => [])
    ++ lits "PRIVATE" ++ [.plus isWs] ++ lits "KEY-----"

/-- The EC PEM pattern (`EC\s+` is mandatory there). -/
def pemEcPattern : List RElem :=
  lits "-----BEGIN" ++ [.plus isWs] ++ lits "EC" ++ [.plus isWs]
    ++ lits "PRIVATE" ++ [.plus isWs] ++ lits "KEY-----"
    ++ [.lazystar anyChar]
    ++ lits "-----END" ++ [.plus isWs] ++ lits "EC" ++ [.plus isWs]
    ++ lits "PRIVATE" ++ [.plus isWs] ++ lits "KEY-----"

/-- `(?:postgresql|postgres|mysql|mongodb(?:\+srv)?|redis)`, branches in
source order. -/
def dbAlt : RElem :=
  .alt (lits "postgresql")
    [.alt (lits "postgres")
      [.alt (lits "mysql")
        [.alt (lits "mongodb" ++ [.alt (lits "+srv") []]) (lits "redis")]]]

/-- `(?:password|secret|token|api_key)` under `re.IGNORECASE`. -/
def genAlt : RElem :=
  .alt (litsCI "password")
    [.alt (litsCI "secret") [.alt (litsCI "token") (litsCI "api_key")]]

/-- `redact.SECRET_VALUE_PATTERNS`, in source order. -/
def SECRET_VALUE_PATTERNS : List (List RElem) :=
  [ lits "sk_live_" ++ [.plus isAlnum]
  , lits "sk_test_" ++ [.plus isAlnum]
  , lits "pk_live_" ++ [.plus isAlnum]
  , lits "pk_test_" ++ [.plus isAlnum]
  , lits "pv_live_" ++ [.plus isAlnumUnd]
  , lits "pv_test_" ++ [.plus isAlnumUnd]
  , lits "ghp_" ++ [.plus isAlnum]
  , lits "gho_" ++ [.plus isAlnum]
  , lits "ghs_" ++ [.plus isAlnum]
  , lits "ghr_" ++ [.plus isAlnum]
  , lits "AKIA" ++ [.rep isUpperDigit 16]
  , lits "xoxb-" ++ [.plus isAlnumDash]
  , lits "xoxp-" ++ [.plus isAlnumDash]
  , lits "xoxs-" ++ [.plus isAlnumDash]
  , pemPattern (some "RSA")
  , pemEcPattern
  , [dbAlt] ++ lits "://" ++ [.plus isNonWs]
  , [genAlt, .star isWs, .lit '=', .star isWs, .plus isNonWs] ]

/-- `redact._is_secret_key`: unanchored case-insensitive search of every
key pattern against the key. -/
def _is_secret_key (key : String) : Bool :=
  SECRET_KEY_PATTERNS.any (fun p => reSearch p key.data)

/-- `redact._redact_value`: the value patterns applied sequentially, each
replacing all of its matches, each seeing the previous result. -/
def _redact_value (value : String) : String :=
  SECRET_VALUE_PATTERNS.foldl (fun result p => subAll p result) value

mutual

/-- `redact.redact_state`: beyond depth 50 the substructure is returned
unmodified; a dict value under a secret-looking key is replaced whole; other
values recurse; strings get `_redact_value`; other scalars pass through. -/
def redact_state : State → Nat → State
  | state, d =>
    if 50 < d then state
    else
      match state with
      | .obj kvs => .obj (redactPairs kvs d)
      | .arr xs => .arr (redactList xs d)
      | .str s => .str (_redact_value s)
      | s => s

/-- The dict comprehension inside `redact_state`. -/
def redactPairs : List (String × State) → Nat → List (String × State)
  | [], _ => []
  | (k, v) :: rest, d =>
    (k, if _is_secret_key k then State.str REDACTED else redact_state v (d + 1))
      :: redactPairs rest d

/-- The list comprehension inside `redact_state`. -/
def redactList : List State → Nat → List State
  | [], _ => []
  | x :: rest, d => redact_state x (d + 1) :: redactList rest d

end


/-!  ## Base64 (the stdlib `base64` module, as used by signature.py)

`b64encode` is the standard encoding.  `b64decode` transcribes the quad
state machine of CPython `binascii.a2b_base64` in its default non-strict
mode, which is what `base64.b64decode(s)` calls: data characters are
collected four to a quad with output bytes emitted eagerly (one at the
second, third and fourth character of each quad, so the unused low bits of
a final partial quad are simply dropped); characters outside the alphabet
are skipped; an `=` counts as padding only once the current quad holds at
least two data characters, and a padding sequence completing a quad ends
decoding successfully with everything after it ignored
(`b64decode("QQ==QQ==") = b"A"`, `b64decode("=QUJD") = b"ABC"`); input
ending mid-quad is a `binascii.Error`, modelled as `none`. -/

/-- The base64 alphabet. -/
def b64Alphabet : List Char :=
  "ABCDEFGHIJKLMNOPQRSTUVWXYZabcdefghijklmnopqrstuvwxyz0123456789+/".data

/-- Value 0..63 to its alphabet character. -/
def b64Chr (v : Nat) : Char := b64Alphabet.getD v (Char.ofNat 63)

/-- Alphabet character back to its value (`table_a2b_base64`). -/
def b64Val (c : Char) : Option Nat := b64Alphabet.findIdx? (fun c2 => c2 = c)

/-- `base64.b64encode` over a byte list (then decoded as ASCII text). -/
def b64encodeBytes : List Nat → List Char
  | a :: b :: c :: rest =>
    b64Chr (a / 4) :: b64Chr (a % 4 * 16 + b / 16) :: b64Chr (b % 16 * 4 + c / 64)
      :: b64Chr (c % 64) :: b64encodeBytes rest
  | [a, b] => [b64Chr (a / 4), b64Chr (a % 4 * 16 + b / 16), b64Chr (b % 16 * 4), '=']
  | [a] => [b64Chr (a / 4), b64Chr (a % 4 * 16), '=', '=']
  | [] => []

/-- `base64.b64encode(bytes).decode("ascii")`. -/
def b64encode (bytes : List Nat) : String := String.mk (b64encodeBytes bytes)

/-- The decoding loop of `binascii.a2b_base64` (non-strict): `quadPos` is
the number of data characters in the current quad, `leftchar` their
leftover bits, `pads` the pad characters seen since the last data
character.  The C code writes each output byte to a buffer the moment it
is complete; building the same bytes by prepending at each emission gives
the identical output list. -/
def a2bBase64 : List Char → Nat → Nat → Nat → Option (List Nat)
  | [], quadPos, _, _ => if quadPos = 0 then some [] else none
  | c :: rest, quadPos, leftchar, pads =>
    if c = '=' then
      if 2 ≤ quadPos then
        if 4 ≤ quadPos + (pads + 1) then some []
        else a2bBase64 rest quadPos leftchar (pads + 1)
      else a2bBase64 rest quadPos leftchar pads
    else
      match b64Val c with
      | none => a2bBase64 rest quadPos leftchar pads
      | some v =>
        match quadPos with
        | 0 => a2bBase64 rest 1 v 0
        | 1 => (a2bBase64 rest 2 (v % 16) 0).map
            (fun tail => (leftchar * 4 + v / 16) :: tail)
        | 2 => (a2bBase64 rest 3 (v % 4) 0).map
            (fun tail => (leftchar * 16 + v / 4) :: tail)
        | _ => (a2bBase64 rest 0 0 0).map
            (fun tail => (leftchar * 64 + v) :: tail)

/-- `base64.b64decode` on a string, `none` standing for `binascii.Error`.
(On a non-ASCII string Python raises `ValueError` even earlier; every use
in signature.py absorbs either exception into `False`.) -/
def b64decode (s : String) : Option (List Nat) :=
  a2bBase64 s.data 0 0 0

/-!  ## Signatures (signature.py)

The Ed25519 backend (PyNaCl or cryptography, interchangeable) is a
parameter: byte strings are `List Nat`, the message keeps its `String` form
(UTF-8 encoding of a string is injective, so nothing is lost), and every
exception a backend raises on malformed key or signature material is
absorbed into `verify` returning `false`, exactly as the `try/except`
in `verify_signature` does. -/

/-- An Ed25519 backend: `sign`, the derived public key, and `verify`. -/
structure SigBackend where
  sign : List Nat → String → List Nat
  pubOf : List Nat → List Nat
  verify : List Nat → String → List Nat → Bool

/-- The signed message `f"{entry.x}:{entry.operation}:{entry.y}:{entry.xy}"`
rebuilt from the entry's current field values. -/
def sigMessage (e : XYEntry) : String :=
  e.x ++ ":" ++ e.operation ++ ":" ++ e.y ++ ":" ++ e.xy

/-- `signature.sign_entry`: signs the proof-field message, stores the
base64 signature and public key on the entry, and records the signer id
only when one is given. -/
def sign_entry (B : SigBackend) (e : XYEntry) (private_key : List Nat)
    (signer_id : Option String) : XYEntry :=
  { e with
    signature := some (b64encode (B.sign private_key (sigMessage e)))
    public_key := some (b64encode (B.pubOf private_key))
    signer_id := match signer_id with | some sid => some sid | none => e.signer_id }

/-- `signature.verify_signature`: `false` when signature or public key is
absent; then base64-decode both (failure → `false`, the caught
`binascii.Error`) and ask the backend, whose own failures are also
`false`. -/
def verify_signature (B : SigBackend) (e : XYEntry) : Bool :=
  match e.signature, e.public_key with
  | some sig, some pub =>
    match b64decode sig, b64decode pub with
    | some sigBytes, some pubBytes => B.verify pubBytes (sigMessage e) sigBytes
    | _, _ => false
  | _, _ => false

/-!  ## The chain (chain.py) -/

/-- `chain.XYChain`, without the `_checkpoint_callback` field: the callback
is an external fire-and-forget side effect that never touches the entries,
and it is not serialized. -/
structure XYChain where
  id : String
  name : String
  entries : List XYEntry
  auto_redact : Bool
  auto_checkpoint : Bool
  checkpoint_interval : Nat

/-- `XYChain.length`. -/
def XYChain.length (c : XYChain) : Nat := c.entries.length

/-- `XYChain.head`: the last entry's `y`, or the sentinel when empty. -/
def XYChain.head (c : XYChain) : String :=
  match c.entries.getLast? with
  | some e => e.y
  | none => GENESIS

/-- `XYChain.root`: the first entry's `xy`, or `None` when empty. -/
def XYChain.root (c : XYChain) : Option String :=
  (c.entries.head?).map (fun e => e.xy)

/-- `XYChain.append`.  The source computes `x` as `self.head` and then
overwrites it with `entries[-1].y` (the same value) when non-empty, or
`GENESIS` when empty; `y` hashes the (possibly redacted) `y_state`, or the
empty dict when absent; the new entry is signed when a private key is
supplied, then appended.  `ts` is the supplied timestamp or the ambient
`time.time()`; the checkpoint callback is an external side effect with no
effect on the chain value.  Returns the new chain and the entry. -/
def XYChain.append (H : String → String) (B : SigBackend) (c : XYChain)
    (operation : String) (x_state y_state : Option State) (status : String)
    (metadata : Option (List (String × State))) (ts : String)
    (private_key : Option (List Nat)) (signer_id : Option String) :
    XYChain × XYEntry :=
  let xs := if c.auto_redact then x_state.map (fun s => redact_state s 0) else x_state
  let ys := if c.auto_redact then y_state.map (fun s => redact_state s 0) else y_state
  let x := match c.entries.getLast? with
    | some e => e.y
    | none => GENESIS
  let y := match ys with
    | some s => hash_state H s
    | none => hash_state H (State.obj [])
  let e0 := XYEntry.create H c.entries.length operation x y xs ys status metadata ts
  let e := match private_key with
    | some sk => sign_entry B e0 sk signer_id
    | none => e0
  ({ c with entries := c.entries ++ [e] }, e)

/-- `XYChain.verify`. -/
def XYChain.verify (H : String → String) (c : XYChain) : Bool × Option Nat :=
  verify_chain H c.entries

/-- The loop of `XYChain.verify_signatures`, carrying the position. -/
def verifySigsAux (B : SigBackend) (i : Nat) : List XYEntry → Bool × Option Nat
  | [] => (true, none)
  | e :: rest =>
    match e.signature with
    | some _ =>
      if verify_signature B e then verifySigsAux B (i + 1) rest
      else (false, some i)
    | none => verifySigsAux B (i + 1) rest

/-- `XYChain.verify_signatures`: unsigned entries are skipped; the first
signed entry that fails to verify breaks at its index. -/
def XYChain.verify_signatures (B : SigBackend) (c : XYChain) : Bool × Option Nat :=
  verifySigsAux B 0 c.entries

/-!  ## Serialization (entry.py / chain.py `to_dict` / `from_dict`)

A produced dictionary is modelled field by field; `Option` at the outer
level means the key may be absent.  For the five optional entry fields the
value itself is nullable in Python, hence `Option (Option _)`: `to_dict`
only ever writes a non-null value or omits the key, which is exactly the
"absence is not conflated with null" contract. -/

/-- The dictionary shape `XYEntry.to_dict` produces and
`XYEntry.from_dict` consumes. -/
structure EntryDict where
  index : Nat
  timestamp : String
  operation : String
  x : String
  y : String
  xy : String
  status : Option String
  verified : Option Bool
  metadata : Option (List (String × State))
  x_state : Option (Option State)
  y_state : Option (Option State)
  signature : Option (Option String)
  signer_id : Option (Option String)
  public_key : Option (Option String)

/-- `XYEntry.to_dict`: the nine always-present keys, plus each optional
field only when it is not `None`. -/
def XYEntry.to_dict (e : XYEntry) : EntryDict :=
  { index := e.index
    timestamp := e.timestamp
    operation := e.operation
    x := e.x
    y := e.y
    xy := e.xy
    status := some e.status
    verified := some e.verified
    metadata := some e.metadata
    x_state := e.x_state.map some
    y_state := e.y_state.map some
    signature := e.signature.map some
    signer_id := e.signer_id.map some
    public_key := e.public_key.map some }

/-- `XYEntry.from_dict`: `data[k]` for the six required keys, `data.get`
with the source defaults for the rest (`Option.join` is `data.get(k)` on a
nullable field: absent and present-null both give `None`). -/
def XYEntry.from_dict (d : EntryDict) : XYEntry :=
  { index := d.index
    timestamp := d.timestamp
    operation := d.operation
    x := d.x
    y := d.y
    xy := d.xy
    x_state := d.x_state.join
    y_state := d.y_state.join
    status := d.status.getD "success"
    verified := d.verified.getD true
    metadata := d.metadata.getD []
    signature := d.signature.join
    signer_id := d.signer_id.join
    public_key := d.public_key.join }

/-- The dictionary shape `XYChain.to_dict` produces and
`XYChain.from_dict` consumes (`length`, `head` and `root` are written but
never read back). -/
structure ChainDict where
  id : String
  name : String
  entries : Option (List EntryDict)
  auto_redact : Option Bool
  auto_checkpoint : Option Bool
  checkpoint_interval : Option Nat
  length : Nat
  head : String
  root : Option String

/-- `XYChain.to_dict`. -/
def XYChain.to_dict (c : XYChain) : ChainDict :=
  { id := c.id
    name := c.name
    entries := some (c.entries.map XYEntry.to_dict)
    auto_redact := some c.auto_redact
    auto_checkpoint := some c.auto_checkpoint
    checkpoint_interval := some c.checkpoint_interval
    length := c.length
    head := c.head
    root := c.root }

/-- `XYChain.from_dict`: identity and configuration (with the dataclass
defaults), then the entries. -/
def XYChain.from_dict (d : ChainDict) : XYChain :=
  { id := d.id
    name := d.name
    auto_redact := d.auto_redact.getD true
    auto_checkpoint := d.auto_checkpoint.getD false
    checkpoint_interval := d.checkpoint_interval.getD 20
    entries := (d.entries.getD []).map XYEntry.from_dict }


/-!  ## Spec-side notions and test fixtures used by the claims -/

/-- The claim's per-position requirement, relative to a pending link value
`p` (`none` at the start of a whole chain, where the genesis rule applies;
`some py` when the previous y is `py`): position `i` needs a reproducible
`xy` and the genesis/link rule for its `x`. -/
def chainCheckFrom (H : String → String) (p : Option String) (es : List XYEntry)
    (i : Nat) : Bool :=
  match es[i]? with
  | none => true
  | some e =>
    verify_entry H e &&
      (if i = 0 then (match p with | none => e.x == GENESIS | some py => e.x == py)
       else (match es[i - 1]? with | none => true | some q => e.x == q.y))

/-- The claim's per-position requirement for a whole chain. -/
def chainCheckAt (H : String → String) (es : List XYEntry) (i : Nat) : Bool :=
  chainCheckFrom H none es i

/-- The earliest position whose requirement fails, as the claim words it. -/
def firstBreak (H : String → String) (es : List XYEntry) : Option Nat :=
  (List.range es.length).find? (fun i => ! chainCheckAt H es i)

/-- A single-field tampering of an entry, carrying the replacement value. -/
inductive Tamper where
  | tx (v : String) : Tamper
  | ty (v : String) : Tamper
  | txy (v : String) : Tamper
  | top (v : String) : Tamper
  | tts (v : String) : Tamper

/-- Apply the tampering to an entry. -/
def Tamper.apply : Tamper → XYEntry → XYEntry
  | .tx v, e => { e with x := v }
  | .ty v, e => { e with y := v }
  | .txy v, e => { e with xy := v }
  | .top v, e => { e with operation := v }
  | .tts v, e => { e with timestamp := v }

/-- The tampering writes a value different from the stored one. -/
def Tamper.changes : Tamper → XYEntry → Prop
  | .tx v, e => v ≠ e.x
  | .ty v, e => v ≠ e.y
  | .txy v, e => v ≠ e.xy
  | .top v, e => v ≠ e.operation
  | .tts v, e => v ≠ e.timestamp

/-- The chain-shape invariant of a list of entries: starting from link value
`xp` at position `i`, every entry links to its predecessor, is indexed
consecutively, and carries a reproducible proof hash. -/
def goodFrom (H : String → String) : String → Nat → List XYEntry → Prop
  | _, _, [] => True
  | xp, i, e :: rest =>
    e.x = xp ∧ e.index = i ∧
      e.xy = compute_xy H e.x e.operation e.y e.timestamp ∧
      goodFrom H e.y (i + 1) rest

/-- Chains reachable from an empty chain by `append` calls. -/
inductive Reachable (H : String → String) (B : SigBackend) : XYChain → Prop where
  | init : ∀ (i n : String) (ar ac : Bool) (ci : Nat),
      Reachable H B ⟨i, n, [], ar, ac, ci⟩
  | step : ∀ (c : XYChain) (op : String) (xs ys : Option State) (st : String)
      (md : Option (List (String × State))) (ts : String)
      (sk : Option (List Nat)) (sid : Option String),
      Reachable H B c →
      Reachable H B (XYChain.append H B c op xs ys st md ts sk sid).1

/-- Little-endian base-16 digits with explicit fuel (one unit per digit is
enough), so that everything below evaluates by kernel reduction. -/
def digitsAux16 : Nat → Nat → List Nat
  | 0, _ => []
  | fuel + 1, n => if n = 0 then [] else n % 16 :: digitsAux16 fuel (n / 16)

/-- An injective byte encoding of a string: each character as its base-16
digits followed by a 16 terminator (test fixture for the signature
claims). -/
def strEnc (m : String) : List Nat :=
  m.data.flatMap (fun c => digitsAux16 c.toNat c.toNat ++ [16])

/-- A stand-in Ed25519 backend for witnesses: complete, message-binding,
signature-unique, and key-binding. -/
def toyB : SigBackend :=
  { sign := fun sk m => sk.map (fun b => b % 256) ++ strEnc m
    pubOf := fun sk => sk.map (fun b => b % 256)
    verify := fun pub m sig => sig == pub ++ strEnc m }

/-- A minimal entry fixture. -/
def sampleEntry (ix : Nat) (ts op x y xy : String) : XYEntry :=
  { index := ix, timestamp := ts, operation := op, x := x, y := y, xy := xy
    x_state := none, y_state := none, status := "success", verified := true
    metadata := [], signature := none, signer_id := none, public_key := none }

/-- The claim-side per-position requirement for `verify_signatures`:
position `i` passes when the entry is unsigned or its signature
verifies. -/
def sigCheckAt (B : SigBackend) (es : List XYEntry) (i : Nat) : Bool :=
  match es[i]? with
  | none => true
  | some e => !e.signature.isSome || verify_signature B e

/-- The earliest position with a signed-but-invalid entry. -/
def firstSigBreak (B : SigBackend) (es : List XYEntry) : Option Nat :=
  (List.range es.length).find? (fun i => ! sigCheckAt B es i)

/-!  ## Helper lemmas -/

theorem str_ext {a b : String} (h : a.data = b.data) : a = b := by
  cases a
  cases b
  exact congrArg String.mk h

theorem str_data_append (a b : String) : (a ++ b).data = a.data ++ b.data := by
  cases a
  cases b
  rfl

/-- Left cancellation for string append. -/
theorem strCancelL {a b c : String} (h : a ++ b = a ++ c) : b = c := by
  apply str_ext
  have h2 : a.data ++ b.data = a.data ++ c.data := by
    rw [← str_data_append, ← str_data_append, h]
  exact List.append_cancel_left h2

/-- Right cancellation for string append. -/
theorem strCancelR {a b c : String} (h : a ++ c = b ++ c) : a = b := by
  apply str_ext
  have h2 : a.data ++ c.data = b.data ++ c.data := by
    rw [← str_data_append, ← str_data_append, h]
  exact List.append_cancel_right h2

/-- The four-slot message `a:b:c:d` determines its first slot when the
other three are fixed. -/
theorem msgSlot1 {a a2 b c d : String}
    (h : a ++ ":" ++ b ++ ":" ++ c ++ ":" ++ d = a2 ++ ":" ++ b ++ ":" ++ c ++ ":" ++ d) :
    a = a2 := by
  have h1 := strCancelR h
  have h2 := strCancelR h1
  have h3 := strCancelR h2
  have h4 := strCancelR h3
  have h5 := strCancelR h4
  exact strCancelR h5

/-- ... its second slot. -/
theorem msgSlot2 {a b b2 c d : String}
    (h : a ++ ":" ++ b ++ ":" ++ c ++ ":" ++ d = a ++ ":" ++ b2 ++ ":" ++ c ++ ":" ++ d) :
    b = b2 := by
  have h1 := strCancelR h
  have h2 := strCancelR h1
  have h3 := strCancelR h2
  have h4 := strCancelR h3
  exact strCancelL h4

/-- ... its third slot. -/
theorem msgSlot3 {a b c c2 d : String}
    (h : a ++ ":" ++ b ++ ":" ++ c ++ ":" ++ d = a ++ ":" ++ b ++ ":" ++ c2 ++ ":" ++ d) :
    c = c2 := by
  have h1 := strCancelR h
  have h2 := strCancelR h1
  exact strCancelL h2

/-- ... its fourth slot. -/
theorem msgSlot4 {a b c d d2 : String}
    (h : a ++ ":" ++ b ++ ":" ++ c ++ ":" ++ d = a ++ ":" ++ b ++ ":" ++ c ++ ":" ++ d2) :
    d = d2 :=
  strCancelL h

theorem xyTagCancel {h1 h2 : String} (h : "xy_" ++ h1 = "xy_" ++ h2) : h1 = h2 :=
  strCancelL h

theorem join_map_some {α : Type} (x : Option α) : (x.map some).join = x := by
  cases x <;> rfl

theorem bind_map_some {α : Type} (x : Option α) : (x.map some).bind (fun a => a) = x := by
  cases x <;> rfl

/-- Entry dictionaries round-trip exactly. -/
theorem entry_roundtrip (e : XYEntry) : XYEntry.from_dict (XYEntry.to_dict e) = e := by
  simp [XYEntry.from_dict, XYEntry.to_dict, bind_map_some]

theorem map_entry_roundtrip (es : List XYEntry) :
    es.map (fun e => XYEntry.from_dict (XYEntry.to_dict e)) = es := by
  induction es with
  | nil => rfl
  | cons e rest ih => simp [entry_roundtrip, ih]

/-- Chain dictionaries round-trip exactly. -/
theorem chain_roundtrip (c : XYChain) : XYChain.from_dict (XYChain.to_dict c) = c := by
  simp [XYChain.from_dict, XYChain.to_dict, Function.comp_def, map_entry_roundtrip]


theorem find?_append_some {α : Type} {l1 l2 : List α} {f : α → Bool} {a : α}
    (h : l1.find? f = some a) : (l1 ++ l2).find? f = some a := by
  induction l1 with
  | nil => simp [List.find?] at h
  | cons x rest ih =>
    by_cases hx : f x = true
    · rw [List.find?_cons_of_pos _ hx] at h
      rw [List.cons_append, List.find?_cons_of_pos _ hx]
      exact h
    · have hx2 : f x = false := by simpa using hx
      rw [List.find?_cons_of_neg _ (by simp [hx2])] at h
      rw [List.cons_append, List.find?_cons_of_neg _ (by simp [hx2])]
      exact ih h

theorem find?_append_none {α : Type} {l1 l2 : List α} {f : α → Bool}
    (h : l1.find? f = none) : (l1 ++ l2).find? f = l2.find? f := by
  induction l1 with
  | nil => rfl
  | cons x rest ih =>
    by_cases hx : f x = true
    · rw [List.find?_cons_of_pos _ hx] at h
      exact absurd h (by simp)
    · have hx2 : f x = false := by simpa using hx
      rw [List.find?_cons_of_neg _ (by simp [hx2])] at h
      rw [List.cons_append, List.find?_cons_of_neg _ (by simp [hx2])]
      exact ih h

theorem find?_map_succ {f : Nat → Bool} (l : List Nat) :
    (l.map Nat.succ).find? f = (l.find? (fun k => f (k + 1))).map Nat.succ := by
  induction l with
  | nil => rfl
  | cons x rest ih =>
    by_cases hx : f (x + 1) = true
    · have hx2 : List.find? (fun k => f (k + 1)) (x :: rest) = some x := by
        simp [List.find?, hx]
      rw [List.map_cons, List.find?_cons_of_pos _ (by simpa using hx), hx2]
      rfl
    · have hx2 : f (x + 1) = false := by simpa using hx
      rw [List.map_cons, List.find?_cons_of_neg _ (by simpa using hx),
        List.find?_cons_of_neg _ (by simp [hx2]), ih]

theorem find?_range_eq_none {f : Nat → Bool} {n : Nat}
    (h : ∀ j, j < n → f j = false) : (List.range n).find? f = none := by
  rw [List.find?_eq_none]
  intro x hx
  simp [h x (List.mem_range.mp hx)]

theorem find?_range_eq_some {f : Nat → Bool} {n i : Nat} (hi : i < n)
    (hf : f i = true) (hmin : ∀ j, j < i → f j = false) :
    (List.range n).find? f = some i := by
  obtain ⟨k, hk⟩ : ∃ k, n = i + (k + 1) := ⟨n - i - 1, by omega⟩
  subst hk
  rw [List.range_add, find?_append_none (find?_range_eq_none hmin)]
  rw [List.range_succ_eq_map]
  simp only [List.map_cons, Nat.add_zero]
  rw [List.find?_cons_of_pos _ hf]

/-- The check at position 0, with the genesis/link rule through `getD`. -/
theorem chainCheckFrom_zero (H : String → String) (p : Option String)
    (e : XYEntry) (rest : List XYEntry) :
    chainCheckFrom H p (e :: rest) 0 =
      (verify_entry H e && (e.x == p.getD GENESIS)) := by
  cases p <;> simp [chainCheckFrom]

/-- Shifting the spec check across the head of the list. -/
theorem chainCheckFrom_shift (H : String → String) (p : Option String)
    (e : XYEntry) (rest : List XYEntry) (k : Nat) :
    chainCheckFrom H p (e :: rest) (k + 1) = chainCheckFrom H (some e.y) rest k := by
  cases k with
  | zero => simp [chainCheckFrom]
  | succ j => simp [chainCheckFrom, Nat.add_sub_cancel]

/-- The loop body, with the genesis/link comparison through `getD`. -/
theorem verifyChainAux_cons (H : String → String) (p : Option String) (i : Nat)
    (e : XYEntry) (rest : List XYEntry) :
    verifyChainAux H p i (e :: rest) =
      if verify_entry H e && (e.x == p.getD GENESIS) then
        verifyChainAux H (some e.y) (i + 1) rest
      else (false, some i) := by
  by_cases hv : verify_entry H e = true
  · cases p with
    | none =>
      by_cases hx : e.x = GENESIS <;> simp [verifyChainAux, hv, hx]
    | some py =>
      by_cases hx : e.x = py <;> simp [verifyChainAux, hv, hx]
  · have hv2 : verify_entry H e = false := by simpa using hv
    simp [verifyChainAux, hv2]

/-- The loop of `verify_chain` is exactly "earliest failing position":
`(true, none)` when every position passes, and `(false, i + k)` with `k`
the earliest failing position otherwise. -/
theorem verifyChainAux_spec (H : String → String) :
    ∀ (es : List XYEntry) (p : Option String) (i : Nat),
      verifyChainAux H p i es =
        match (List.range es.length).find? (fun k => ! chainCheckFrom H p es k) with
        | none => (true, none)
        | some k => (false, some (i + k))
  | [], _, _ => rfl
  | e :: rest, p, i => by
    rw [verifyChainAux_cons, List.length_cons, List.range_succ_eq_map]
    by_cases hc : (verify_entry H e && (e.x == p.getD GENESIS)) = true
    · have hc0 : (! chainCheckFrom H p (e :: rest) 0) = false := by
        rw [chainCheckFrom_zero, hc]
        rfl
      rw [if_pos hc, verifyChainAux_spec H rest (some e.y) (i + 1)]
      rw [List.find?_cons_of_neg _ (by simp [hc0]), find?_map_succ]
      have hsh : (fun k => ! chainCheckFrom H p (e :: rest) (k + 1)) =
          (fun k => ! chainCheckFrom H (some e.y) rest k) := by
        funext k
        rw [chainCheckFrom_shift]
      rw [hsh]
      cases (List.range rest.length).find? (fun k => ! chainCheckFrom H (some e.y) rest k) with
      | none => rfl
      | some k =>
        have harith : i + 1 + k = i + (k + 1) := by omega
        simp [harith]
    · have hc2 : (verify_entry H e && (e.x == p.getD GENESIS)) = false := by
        rw [Bool.not_eq_true] at hc
        exact hc
      have hc0 : (! chainCheckFrom H p (e :: rest) 0) = true := by
        rw [chainCheckFrom_zero, hc2]
        rfl
      have hfind : List.find? (fun k => ! chainCheckFrom H p (e :: rest) k)
          (0 :: List.map Nat.succ (List.range rest.length)) = some 0 := by
        simp [List.find?, hc0]
      rw [if_neg hc, hfind]
      simp

/-- `verify_chain` against the claim-side earliest-failure function. -/
theorem verify_chain_eq_firstBreak (H : String → String) (es : List XYEntry) :
    verify_chain H es =
      match firstBreak H es with
      | none => (true, none)
      | some i => (false, some i) := by
  rw [verify_chain, verifyChainAux_spec H es none 0]
  unfold firstBreak chainCheckAt
  cases (List.range es.length).find? (fun k => ! chainCheckFrom H none es k) with
  | none => rfl
  | some k => simp


theorem find?_range_some_lt {f : Nat → Bool} {n i : Nat}
    (h : (List.range n).find? f = some i) : i < n :=
  List.mem_range.mp (List.mem_of_find?_eq_some h)

theorem find?_range_some_true {f : Nat → Bool} {n i : Nat}
    (h : (List.range n).find? f = some i) : f i = true :=
  List.find?_some h

theorem find?_range_some_min {f : Nat → Bool} {n i : Nat}
    (h : (List.range n).find? f = some i) : ∀ j, j < i → f j = false := by
  intro j hj
  by_contra hcon
  have hfj : f j = true := by simpa using hcon
  have hex : ∃ m, f m = true := ⟨j, hfj⟩
  have hle : Nat.find hex ≤ j := Nat.find_min' hex hfj
  have hin : i < n := find?_range_some_lt h
  have h0 : (List.range n).find? f = some (Nat.find hex) := by
    apply find?_range_eq_some (by omega) (Nat.find_spec hex)
    intro k hk
    have hnot := Nat.find_min hex hk
    simpa using hnot
  rw [h] at h0
  have : i = Nat.find hex := by
    exact Option.some.inj h0
  omega

/-- The position-`k` check only reads the first `k + 1` entries. -/
theorem chainCheckAt_take_eq (H : String → String) {es es2 : List XYEntry} {i : Nat}
    (ht : es2.take (i + 1) = es.take (i + 1)) :
    ∀ k, k ≤ i → chainCheckAt H es2 k = chainCheckAt H es k := by
  have hget : ∀ m, m ≤ i → es2[m]? = es[m]? := by
    intro m hm
    have h1 : (es2.take (i + 1))[m]? = es2[m]? := by
      rw [List.getElem?_take, if_pos (by omega : m < i + 1)]
    have h2 : (es.take (i + 1))[m]? = es[m]? := by
      rw [List.getElem?_take, if_pos (by omega : m < i + 1)]
    rw [← h1, ← h2, ht]
  intro k hk
  unfold chainCheckAt chainCheckFrom
  rw [hget k hk]
  cases k with
  | zero => rfl
  | succ j =>
    simp only [Nat.add_sub_cancel]
    rw [hget j (by omega)]


/-- C1: `verify_chain` makes a single forward pass and returns
`(true, none)` on the empty list; position 0 requires a reproducible `xy`
and `x = "GENESIS"`, position `i > 0` a reproducible `xy` and
`x = entries[i-1].y` (that is `chainCheckAt`); the earliest position whose
check fails is returned as `(false, i)`; and that result depends only on
entries `0..i`, so no later entry is inspected. -/
theorem verify_chain_first_violation (H : String → String) (es : List XYEntry) :
    verify_chain H ([] : List XYEntry) = (true, none) ∧
    (verify_chain H es =
      match firstBreak H es with
      | none => (true, none)
      | some i => (false, some i)) ∧
    (∀ i, firstBreak H es = some i →
      ∀ es2 : List XYEntry, es2.take (i + 1) = es.take (i + 1) →
        verify_chain H es2 = (false, some i)) := by
  refine ⟨rfl, verify_chain_eq_firstBreak H es, ?_⟩
  intro i hfb es2 ht
  have hfb0 : (List.range es.length).find? (fun k => ! chainCheckAt H es k) = some i := hfb
  have hlt : i < es.length := find?_range_some_lt hfb0
  have hfi : chainCheckAt H es i = false := by
    have := find?_range_some_true hfb0
    simpa using this
  have hmin : ∀ j, j < i → chainCheckAt H es j = true := by
    intro j hj
    have := find?_range_some_min hfb0 j hj
    simpa using this
  have hlen2 : i < es2.length := by
    have hc := congrArg List.length ht
    simp only [List.length_take] at hc
    omega
  have hfb2 : firstBreak H es2 = some i := by
    unfold firstBreak
    apply find?_range_eq_some hlen2
    · show (! chainCheckAt H es2 i) = true
      rw [chainCheckAt_take_eq H ht i (le_refl i), hfi]
      rfl
    · intro j hj
      show (! chainCheckAt H es2 j) = false
      rw [chainCheckAt_take_eq H ht j (by omega), hmin j hj]
      rfl
  rw [verify_chain_eq_firstBreak H es2, hfb2]

theorem verify_chain_first_violation_witness :
    verify_chain (fun s => s)
      [sampleEntry 0 "1" "a" "GENESIS" "y0" "xy_GENESIS:a:y0:1",
       sampleEntry 1 "2" "b" "WRONG" "y1" "xy_WRONG:b:y1:2",
       sampleEntry 9 "9" "z" "q" "q" "junk"] = (false, some 1) :=
  (verify_chain_first_violation (fun s => s)
      [sampleEntry 0 "1" "a" "GENESIS" "y0" "xy_GENESIS:a:y0:1",
       sampleEntry 1 "2" "b" "WRONG" "y1" "xy_WRONG:b:y1:2",
       sampleEntry 2 "3" "c" "y1" "y2" "xy_y1:c:y2:3"]).2.2 1 (by decide)
    [sampleEntry 0 "1" "a" "GENESIS" "y0" "xy_GENESIS:a:y0:1",
     sampleEntry 1 "2" "b" "WRONG" "y1" "xy_WRONG:b:y1:2",
     sampleEntry 9 "9" "z" "q" "q" "junk"] (by rfl)


/-- On a chain that verifies, every position passes its check. -/
theorem chainCheckAt_of_valid {H : String → String} {es : List XYEntry}
    (h : verify_chain H es = (true, none)) :
    ∀ i, i < es.length → chainCheckAt H es i = true := by
  have hfb : firstBreak H es = none := by
    rcases hcase : firstBreak H es with _ | k
    · rfl
    · rw [verify_chain_eq_firstBreak H es, hcase] at h
      simp at h
  have hfb2 : (List.range es.length).find? (fun k => ! chainCheckAt H es k) = none := hfb
  rw [List.find?_eq_none] at hfb2
  intro i hi
  have := hfb2 i (List.mem_range.mpr hi)
  simpa using this

/-- Tampering with any single proof field of an entry breaks its own check,
when the hash is collision-free. -/
theorem verify_entry_tamper_false {H : String → String}
    (hinj : Function.Injective H) {e : XYEntry} (t : Tamper)
    (hv : verify_entry H e = true) (hch : t.changes e) :
    verify_entry H (t.apply e) = false := by
  have hxy : e.xy = compute_xy H e.x e.operation e.y e.timestamp := by
    simpa [verify_entry] using hv
  cases t with
  | txy v =>
    simp only [Tamper.changes] at hch
    simp only [Tamper.apply, verify_entry]
    rw [← hxy]
    exact beq_eq_false_iff_ne.mpr hch
  | tx v =>
    simp only [Tamper.changes] at hch
    simp only [Tamper.apply, verify_entry]
    rw [hxy]
    apply beq_eq_false_iff_ne.mpr
    intro hEq
    unfold compute_xy at hEq
    exact hch (msgSlot1 (hinj (xyTagCancel hEq))).symm
  | top v =>
    simp only [Tamper.changes] at hch
    simp only [Tamper.apply, verify_entry]
    rw [hxy]
    apply beq_eq_false_iff_ne.mpr
    intro hEq
    unfold compute_xy at hEq
    exact hch (msgSlot2 (hinj (xyTagCancel hEq))).symm
  | ty v =>
    simp only [Tamper.changes] at hch
    simp only [Tamper.apply, verify_entry]
    rw [hxy]
    apply beq_eq_false_iff_ne.mpr
    intro hEq
    unfold compute_xy at hEq
    exact hch (msgSlot3 (hinj (xyTagCancel hEq))).symm
  | tts v =>
    simp only [Tamper.changes] at hch
    simp only [Tamper.apply, verify_entry]
    rw [hxy]
    apply beq_eq_false_iff_ne.mpr
    intro hEq
    unfold compute_xy at hEq
    exact hch (msgSlot4 (hinj (xyTagCancel hEq))).symm

theorem set_take_eq {es : List XYEntry} {k : Nat} {a : XYEntry} :
    (es.set k a).take k = es.take k := by
  apply List.ext_getElem?
  intro i
  rw [List.getElem?_take, List.getElem?_take]
  by_cases h : i < k
  · rw [if_pos h, if_pos h, List.getElem?_set_ne (by omega)]
  · rw [if_neg h, if_neg h]

/-- C2: in a well-formed chain, changing exactly one of `x`, `y`, `xy`,
`operation`, `timestamp` of `entries[k]` to a different value (entries
`0..k-1` untouched) makes `verify_chain` return `(false, k)` — exactly
`k` — provided the hash has no colliding inputs here (`H` injective; for
SHA-256 this is the collision-resistance assumption). -/
theorem verify_chain_tamper_localizes (H : String → String)
    (hinj : Function.Injective H) (es : List XYEntry) (k : Nat) (e : XYEntry)
    (t : Tamper) (hval : verify_chain H es = (true, none))
    (hget : es[k]? = some e) (hch : t.changes e) :
    verify_chain H (es.set k (t.apply e)) = (false, some k) := by
  have hklen : k < es.length := by
    by_contra hcon
    rw [List.getElem?_eq_none (by omega)] at hget
    cases hget
  have hok := chainCheckAt_of_valid hval
  have hvk : verify_entry H e = true := by
    have h1 := hok k hklen
    unfold chainCheckAt chainCheckFrom at h1
    rw [hget] at h1
    simp only [Bool.and_eq_true] at h1
    exact h1.1
  have hlen2 : k < (es.set k (t.apply e)).length := by
    rw [List.length_set]
    exact hklen
  have hk2 : chainCheckAt H (es.set k (t.apply e)) k = false := by
    unfold chainCheckAt chainCheckFrom
    rw [List.getElem?_set_self hklen]
    simp only [verify_entry_tamper_false hinj t hvk hch, Bool.false_and]
  have hpre : ∀ j, j < k → chainCheckAt H (es.set k (t.apply e)) j = true := by
    intro j hj
    have htake : (es.set k (t.apply e)).take ((k - 1) + 1) = es.take ((k - 1) + 1) := by
      have hkk : (k - 1) + 1 = k := by omega
      rw [hkk]
      exact set_take_eq
    rw [chainCheckAt_take_eq H htake j (by omega)]
    exact hok j (by omega)
  rw [verify_chain_eq_firstBreak]
  have hfb : firstBreak H (es.set k (t.apply e)) = some k := by
    unfold firstBreak
    apply find?_range_eq_some hlen2
    · show (! chainCheckAt H (es.set k (t.apply e)) k) = true
      rw [hk2]
      rfl
    · intro j hj
      show (! chainCheckAt H (es.set k (t.apply e)) j) = false
      rw [hpre j hj]
      rfl
  rw [hfb]

theorem verify_chain_tamper_localizes_witness :
    verify_chain (fun s => s)
      ([sampleEntry 0 "1" "a" "GENESIS" "y0" "xy_GENESIS:a:y0:1",
        sampleEntry 1 "2" "b" "y0" "y1" "xy_y0:b:y1:2",
        sampleEntry 2 "3" "c" "y1" "y2" "xy_y1:c:y2:3"].set 1
        (Tamper.apply (Tamper.ty "EVIL")
          (sampleEntry 1 "2" "b" "y0" "y1" "xy_y0:b:y1:2"))) = (false, some 1) :=
  verify_chain_tamper_localizes (fun s => s) (fun _ _ h => h)
    [sampleEntry 0 "1" "a" "GENESIS" "y0" "xy_GENESIS:a:y0:1",
     sampleEntry 1 "2" "b" "y0" "y1" "xy_y0:b:y1:2",
     sampleEntry 2 "3" "c" "y1" "y2" "xy_y1:c:y2:3"] 1
    (sampleEntry 1 "2" "b" "y0" "y1" "xy_y0:b:y1:2") (Tamper.ty "EVIL")
    (by decide) (by rfl) (show ("EVIL" : String) ≠ "y1" by decide)


/-- C8: serializing a chain and deserializing it yields a chain with the
same `length`, `head` and `root`, whose verify result is identical; each
optional entry field is present in the serialized map exactly when present
on the entry (as a non-null value, so absence is never conflated with
null); in fact the round-trip reproduces the chain exactly. -/
theorem serialization_roundtrip (H : String → String) (c : XYChain) :
    (XYChain.from_dict (XYChain.to_dict c)).length = c.length ∧
    (XYChain.from_dict (XYChain.to_dict c)).head = c.head ∧
    (XYChain.from_dict (XYChain.to_dict c)).root = c.root ∧
    XYChain.verify H (XYChain.from_dict (XYChain.to_dict c)) = XYChain.verify H c ∧
    (∀ e : XYEntry,
      (XYEntry.to_dict e).x_state = e.x_state.map some ∧
      (XYEntry.to_dict e).y_state = e.y_state.map some ∧
      (XYEntry.to_dict e).signature = e.signature.map some ∧
      (XYEntry.to_dict e).signer_id = e.signer_id.map some ∧
      (XYEntry.to_dict e).public_key = e.public_key.map some) ∧
    XYChain.from_dict (XYChain.to_dict c) = c := by
  rw [chain_roundtrip]
  exact ⟨rfl, rfl, rfl, rfl, fun e => ⟨rfl, rfl, rfl, rfl, rfl⟩, rfl⟩

/-- The verification loop only reads the five proof fields of each entry. -/
theorem verifyChainAux_congr (H : String → String) {es1 es2 : List XYEntry}
    (hagree : List.Forall₂ (fun a b => a.x = b.x ∧ a.y = b.y ∧ a.xy = b.xy ∧
      a.operation = b.operation ∧ a.timestamp = b.timestamp) es1 es2) :
    ∀ (p : Option String) (i : Nat),
      verifyChainAux H p i es1 = verifyChainAux H p i es2 := by
  induction hagree with
  | nil => intro p i; rfl
  | @cons a b l1 l2 hab hrest ih =>
    intro p i
    obtain ⟨hx, hy, hxy, hop, hts⟩ := hab
    rw [verifyChainAux_cons, verifyChainAux_cons]
    have hve : verify_entry H a = verify_entry H b := by
      unfold verify_entry
      rw [hx, hy, hxy, hop, hts]
    rw [hve, hx, hy, ih]

/-- C9 counterexample: two singleton lists agreeing on `x`, `y`,
`operation` and `timestamp` — differing only in the stored `xy` — get
different `verify_chain` results, so those four fields alone do not
determine the outcome. -/
theorem verify_chain_xy_matters :
    (sampleEntry 0 "1" "a" "GENESIS" "y0" "xy_GENESIS:a:y0:1").x =
      (sampleEntry 0 "1" "a" "GENESIS" "y0" "junk").x ∧
    (sampleEntry 0 "1" "a" "GENESIS" "y0" "xy_GENESIS:a:y0:1").y =
      (sampleEntry 0 "1" "a" "GENESIS" "y0" "junk").y ∧
    (sampleEntry 0 "1" "a" "GENESIS" "y0" "xy_GENESIS:a:y0:1").operation =
      (sampleEntry 0 "1" "a" "GENESIS" "y0" "junk").operation ∧
    (sampleEntry 0 "1" "a" "GENESIS" "y0" "xy_GENESIS:a:y0:1").timestamp =
      (sampleEntry 0 "1" "a" "GENESIS" "y0" "junk").timestamp ∧
    verify_chain (fun s => s)
      [sampleEntry 0 "1" "a" "GENESIS" "y0" "xy_GENESIS:a:y0:1"] = (true, none) ∧
    verify_chain (fun s => s)
      [sampleEntry 0 "1" "a" "GENESIS" "y0" "junk"] = (false, some 0) := by
  refine ⟨rfl, rfl, rfl, rfl, by decide, by decide⟩

/-- C9 (amended): the result of `verify_chain` is determined by each
entry's `x`, `y`, `xy`, `operation` and `timestamp` alone: two entry lists
that agree entrywise on those five fields produce the same
`(valid, break_index)` result, regardless of their `x_state`, `y_state`,
`status`, `metadata`, `index`, `verified`, `signature`, `signer_id` and
`public_key` fields. -/
theorem verify_chain_proof_fields_only (H : String → String)
    (es1 es2 : List XYEntry)
    (hagree : List.Forall₂ (fun a b => a.x = b.x ∧ a.y = b.y ∧ a.xy = b.xy ∧
      a.operation = b.operation ∧ a.timestamp = b.timestamp) es1 es2) :
    verify_chain H es1 = verify_chain H es2 :=
  verifyChainAux_congr H hagree none 0

theorem verify_chain_proof_fields_only_witness :
    verify_chain (fun s => s)
      [sampleEntry 0 "1" "a" "GENESIS" "y0" "xy_GENESIS:a:y0:1"] =
    verify_chain (fun s => s)
      [{ sampleEntry 7 "1" "a" "GENESIS" "y0" "xy_GENESIS:a:y0:1" with
          status := "failed", verified := false,
          x_state := some (State.obj []), metadata := [("k", State.null)],
          signature := some "sig" }] :=
  verify_chain_proof_fields_only (fun s => s)
    [sampleEntry 0 "1" "a" "GENESIS" "y0" "xy_GENESIS:a:y0:1"]
    [{ sampleEntry 7 "1" "a" "GENESIS" "y0" "xy_GENESIS:a:y0:1" with
        status := "failed", verified := false,
        x_state := some (State.obj []), metadata := [("k", State.null)],
        signature := some "sig" }]
    (List.Forall₂.cons ⟨rfl, rfl, rfl, rfl, rfl⟩ List.Forall₂.nil)


/-- Growing a good list by a correctly linked, indexed and hashed entry. -/
theorem goodFrom_append {H : String → String} (e : XYEntry) :
    ∀ (l : List XYEntry) (xp : String) (i : Nat),
      goodFrom H xp i l →
      e.x = (match l.getLast? with | some p => p.y | none => xp) →
      e.index = i + l.length →
      e.xy = compute_xy H e.x e.operation e.y e.timestamp →
      goodFrom H xp i (l ++ [e])
  | [], xp, i, _, hx, hidx, hxy => by
    refine ⟨by simpa using hx, by simpa using hidx, hxy, trivial⟩
  | f :: rest, xp, i, hg, hx, hidx, hxy => by
    obtain ⟨hfx, hfi, hfxy, hrest⟩ := hg
    refine ⟨hfx, hfi, hfxy, ?_⟩
    apply goodFrom_append e rest f.y (i + 1) hrest ?_ ?_ hxy
    · rw [hx]
      cases rest with
      | nil => rfl
      | cons g rs =>
        rw [List.getLast?_cons_cons]
        cases hgl : (g :: rs).getLast? with
        | none => simp at hgl
        | some p => rfl
    · rw [hidx, List.length_cons]
      omega

theorem goodFrom_index {H : String → String} :
    ∀ (l : List XYEntry) (xp : String) (i : Nat), goodFrom H xp i l →
      ∀ (j : Nat) (e : XYEntry), l[j]? = some e → e.index = i + j
  | [], _, _, _, j, e, hj => by simp at hj
  | f :: rest, xp, i, hg, 0, e, hj => by
    obtain ⟨_, hfi, _, _⟩ := hg
    have hfe : f = e := by simpa using hj
    rw [← hfe]
    omega
  | f :: rest, xp, i, hg, j + 1, e, hj => by
    obtain ⟨_, _, _, hrest⟩ := hg
    have := goodFrom_index rest f.y (i + 1) hrest j e (by simpa using hj)
    omega

theorem goodFrom_first {H : String → String} {l : List XYEntry}
    {xp : String} {i : Nat} (hg : goodFrom H xp i l) :
    ∀ e, l[0]? = some e → e.x = xp := by
  cases l with
  | nil => intro e he; simp at he
  | cons f rest =>
    intro e he
    have hfe : f = e := by simpa using he
    obtain ⟨hfx, _, _, _⟩ := hg
    rw [← hfe]
    exact hfx

theorem goodFrom_link {H : String → String} :
    ∀ (l : List XYEntry) (xp : String) (i : Nat), goodFrom H xp i l →
      ∀ (j : Nat) (e1 e2 : XYEntry),
        l[j]? = some e1 → l[j + 1]? = some e2 → e2.x = e1.y
  | [], _, _, _, j, e1, e2, h1, h2 => by simp at h1
  | f :: rest, xp, i, hg, 0, e1, e2, h1, h2 => by
    obtain ⟨_, _, _, hrest⟩ := hg
    have hfe : f = e1 := by simpa using h1
    rw [← hfe]
    exact goodFrom_first hrest e2 (by simpa using h2)
  | f :: rest, xp, i, hg, j + 1, e1, e2, h1, h2 => by
    obtain ⟨_, _, _, hrest⟩ := hg
    exact goodFrom_link rest f.y (i + 1) hrest j e1 e2 (by simpa using h1)
      (by simpa using h2)

theorem goodFrom_verify {H : String → String} :
    ∀ (l : List XYEntry) (xp : String) (i : Nat) (p : Option String),
      goodFrom H xp i l → p.getD GENESIS = xp →
      verifyChainAux H p i l = (true, none)
  | [], _, _, _, _, _ => rfl
  | f :: rest, xp, i, p, hg, hp => by
    obtain ⟨hfx, _, hfxy, hrest⟩ := hg
    rw [verifyChainAux_cons]
    have hve : verify_entry H f = true := by
      unfold verify_entry
      rw [hfxy]
      simp
    have hxc : (f.x == p.getD GENESIS) = true := by
      rw [hp, hfx]
      simp
    rw [hve, hxc]
    simp only [Bool.and_self, if_true]
    exact goodFrom_verify rest f.y (i + 1) (some f.y) hrest rfl

/-- The entries of an appended chain are the old entries plus the new one. -/
theorem append_entries (H : String → String) (B : SigBackend) (c : XYChain)
    (op : String) (xs ys : Option State) (st : String)
    (md : Option (List (String × State))) (ts : String)
    (sk : Option (List Nat)) (sid : Option String) :
    ((XYChain.append H B c op xs ys st md ts sk sid).1).entries =
      c.entries ++ [(XYChain.append H B c op xs ys st md ts sk sid).2] := by
  cases sk <;> rfl

/-- The appended entry is linked, indexed, and hash-correct (signing does
not touch the proof fields). -/
theorem append_entry_fields (H : String → String) (B : SigBackend) (c : XYChain)
    (op : String) (xs ys : Option State) (st : String)
    (md : Option (List (String × State))) (ts : String)
    (sk : Option (List Nat)) (sid : Option String) :
    ((XYChain.append H B c op xs ys st md ts sk sid).2).x =
      (match c.entries.getLast? with | some p => p.y | none => GENESIS) ∧
    ((XYChain.append H B c op xs ys st md ts sk sid).2).index = c.entries.length ∧
    ((XYChain.append H B c op xs ys st md ts sk sid).2).xy =
      compute_xy H ((XYChain.append H B c op xs ys st md ts sk sid).2).x op
        ((XYChain.append H B c op xs ys st md ts sk sid).2).y ts := by
  cases sk <;> exact ⟨rfl, rfl, rfl⟩

/-- Every reachable chain satisfies the chain-shape invariant. -/
theorem reachable_good {H : String → String} {B : SigBackend} {c : XYChain}
    (h : Reachable H B c) : goodFrom H GENESIS 0 c.entries := by
  induction h with
  | init i n ar ac ci => trivial
  | step c op xs ys st md ts sk sid hr ih =>
    rw [append_entries]
    obtain ⟨hx, hidx, hxy⟩ := append_entry_fields H B c op xs ys st md ts sk sid
    apply goodFrom_append _ _ _ _ ih hx (by simpa using hidx) ?_
    have hop : ((XYChain.append H B c op xs ys st md ts sk sid).2).operation = op := by
      cases sk <;> rfl
    have hts : ((XYChain.append H B c op xs ys st md ts sk sid).2).timestamp = ts := by
      cases sk <;> rfl
    rw [hxy, hop, hts]


/-- C3: every chain reachable from the empty chain by appends has
zero-based contiguous indices, `"GENESIS"` as the first `x`, the chain rule
`entries[i+1].x = entries[i].y`, `head` equal to the last `y` (sentinel
when empty), `root` equal to the first `xy` (`none` when empty) and stable
under any further append once set, and verifies as `(true, none)`. -/
theorem chain_append_invariants (H : String → String) (B : SigBackend)
    (c : XYChain) (hr : Reachable H B c) :
    (∀ (i : Nat) (e : XYEntry), c.entries[i]? = some e → e.index = i) ∧
    (∀ e : XYEntry, c.entries[0]? = some e → e.x = GENESIS) ∧
    (∀ (i : Nat) (e1 e2 : XYEntry), c.entries[i]? = some e1 →
      c.entries[i + 1]? = some e2 → e2.x = e1.y) ∧
    (c.entries = [] → c.head = GENESIS) ∧
    (∀ e : XYEntry, c.entries.getLast? = some e → c.head = e.y) ∧
    (c.entries = [] → c.root = none) ∧
    (∀ e : XYEntry, c.entries[0]? = some e → c.root = some e.xy) ∧
    (c.entries ≠ [] → ∀ (op : String) (xs ys : Option State) (st : String)
      (md : Option (List (String × State))) (ts : String)
      (sk : Option (List Nat)) (sid : Option String),
      ((XYChain.append H B c op xs ys st md ts sk sid).1).root = c.root) ∧
    verify_chain H c.entries = (true, none) := by
  have hg := reachable_good hr
  refine ⟨?_, ?_, ?_, ?_, ?_, ?_, ?_, ?_, ?_⟩
  · intro i e he
    have := goodFrom_index c.entries GENESIS 0 hg i e he
    omega
  · exact goodFrom_first hg
  · intro i e1 e2 h1 h2
    exact goodFrom_link c.entries GENESIS 0 hg i e1 e2 h1 h2
  · intro hnil
    unfold XYChain.head
    rw [hnil]
    rfl
  · intro e he
    unfold XYChain.head
    rw [he]
  · intro hnil
    unfold XYChain.root
    rw [hnil]
    rfl
  · intro e he
    unfold XYChain.root
    cases hent : c.entries with
    | nil => rw [hent] at he; simp at he
    | cons f rest =>
      rw [hent] at he
      have hfe : f = e := by simpa using he
      rw [hfe]
      rfl
  · intro hne op xs ys st md ts sk sid
    unfold XYChain.root
    rw [append_entries]
    cases hent : c.entries with
    | nil => exact absurd hent hne
    | cons f rest => rfl
  · exact goodFrom_verify c.entries GENESIS 0 none hg rfl

theorem chain_append_invariants_witness :
    verify_chain (fun s => s)
      ((XYChain.append (fun s => s) toyB ⟨"id0", "n", [], true, false, 20⟩
        "op" none (some (State.obj [("password", State.str "pw")]))
        "success" none "1" none none).1).entries = (true, none) :=
  (chain_append_invariants (fun s => s) toyB _
    (Reachable.step ⟨"id0", "n", [], true, false, 20⟩ "op" none
      (some (State.obj [("password", State.str "pw")])) "success" none "1"
      none none (Reachable.init "id0" "n" true false 20))).2.2.2.2.2.2.2.2


theorem dumpsPairs_eq_map : ∀ l : List (String × State),
    dumpsPairs l = l.map (fun p => (p.1, encStr p.1 ++ ":" ++ dumps p.2))
  | [] => rfl
  | (k, v) :: rest => by
    rw [dumpsPairs, List.map_cons, dumpsPairs_eq_map rest]

theorem canonPairs_eq_map : ∀ l : List (String × State),
    canonPairs l = l.map (fun p => (p.1, canon p.2))
  | [] => rfl
  | (k, v) :: rest => by
    rw [canonPairs, List.map_cons, canonPairs_eq_map rest]

/-- Rendering object items commutes with sorting them by key, because
rendering keeps the key and the comparison reads only the key. -/
theorem dumpsPairs_insertionSort (l : List (String × State)) :
    dumpsPairs (l.insertionSort lePair) = (dumpsPairs l).insertionSort leKey := by
  rw [dumpsPairs_eq_map, dumpsPairs_eq_map]
  exact List.map_insertionSort lePair leKey _ l (fun a _ b _ => Iff.rfl)

theorem insertionSort_idem (X : List (String × String)) :
    (X.insertionSort leKey).insertionSort leKey = X.insertionSort leKey :=
  (List.sorted_insertionSort leKey X).insertionSort_eq

mutual

/-- Serialization is blind to the canonicalization pass: `dumps` already
sorts every object, so sorting beforehand changes nothing. -/
theorem dumps_canon : ∀ s : State, dumps (canon s) = dumps s
  | .null => rfl
  | .bool b => rfl
  | .num n => rfl
  | .str s => rfl
  | .arr xs => by
    simp only [canon, dumps]
    rw [dumpsList_canon xs]
  | .obj kvs => by
    simp only [canon, dumps]
    rw [dumpsPairs_insertionSort, insertionSort_idem, dumpsPairs_canon kvs]

theorem dumpsList_canon : ∀ xs : List State, dumpsList (canonList xs) = dumpsList xs
  | [] => rfl
  | x :: xs => by
    simp only [canonList, dumpsList]
    rw [dumps_canon x, dumpsList_canon xs]

theorem dumpsPairs_canon : ∀ l : List (String × State),
    dumpsPairs (canonPairs l) = dumpsPairs l
  | [] => rfl
  | (k, v) :: rest => by
    simp only [canonPairs, dumpsPairs]
    rw [dumps_canon v, dumpsPairs_canon rest]

end

theorem sorted_strict {l : List (String × State)} (hs : List.Sorted lePair l)
    (hnd : (l.map Prod.fst).Nodup) : List.Sorted ltPair l := by
  have hne : l.Pairwise (fun a b => a.1 ≠ b.1) := List.pairwise_map.mp hnd
  exact (hs.and hne).imp (fun h => lt_of_le_of_ne h.1 h.2)

/-- Permuting the items of a duplicate-free object leaves `canon` fixed. -/
theorem canon_obj_perm {kvs kvs2 : List (String × State)}
    (hnd : (kvs.map Prod.fst).Nodup) (hp : kvs.Perm kvs2) :
    canon (State.obj kvs) = canon (State.obj kvs2) := by
  simp only [canon]
  congr 1
  have hp2 : (canonPairs kvs).Perm (canonPairs kvs2) := by
    rw [canonPairs_eq_map, canonPairs_eq_map]
    exact hp.map _
  have hkeys1 : (canonPairs kvs).map Prod.fst = kvs.map Prod.fst := by
    rw [canonPairs_eq_map, List.map_map]
    rfl
  have hkeys2 : (canonPairs kvs2).map Prod.fst = kvs2.map Prod.fst := by
    rw [canonPairs_eq_map, List.map_map]
    rfl
  have hnd1 : ((canonPairs kvs).map Prod.fst).Nodup := by
    rw [hkeys1]
    exact hnd
  have hnd2 : ((canonPairs kvs2).map Prod.fst).Nodup := by
    rw [hkeys2]
    exact (hp.map Prod.fst).nodup_iff.mp hnd
  have hs1 : List.Sorted ltPair ((canonPairs kvs).insertionSort lePair) := by
    apply sorted_strict (List.sorted_insertionSort lePair _)
    have hpm : (((canonPairs kvs).insertionSort lePair).map Prod.fst).Perm
        ((canonPairs kvs).map Prod.fst) := (List.perm_insertionSort lePair _).map _
    exact hpm.nodup_iff.mpr hnd1
  have hs2 : List.Sorted ltPair ((canonPairs kvs2).insertionSort lePair) := by
    apply sorted_strict (List.sorted_insertionSort lePair _)
    have hpm : (((canonPairs kvs2).insertionSort lePair).map Prod.fst).Perm
        ((canonPairs kvs2).map Prod.fst) := (List.perm_insertionSort lePair _).map _
    exact hpm.nodup_iff.mpr hnd2
  have hpp : ((canonPairs kvs).insertionSort lePair).Perm
      ((canonPairs kvs2).insertionSort lePair) :=
    ((List.perm_insertionSort lePair _).trans hp2).trans
      (List.perm_insertionSort lePair _).symm
  exact List.eq_of_perm_of_sorted hpp hs1 hs2

/-- C4: `hash_state` is a total function on `State`, and the digest is
invariant under map key insertion order at every nesting level: states with
the same canonical form hash identically, and in particular permuting the
items of a duplicate-free object leaves the digest unchanged. -/
theorem hash_state_canonical (H : String → String) :
    (∀ s t : State, canon s = canon t → hash_state H s = hash_state H t) ∧
    (∀ kvs kvs2 : List (String × State), (kvs.map Prod.fst).Nodup →
      kvs.Perm kvs2 →
      hash_state H (State.obj kvs) = hash_state H (State.obj kvs2)) := by
  have h1 : ∀ s t : State, canon s = canon t → hash_state H s = hash_state H t := by
    intro s t h
    unfold hash_state
    rw [← dumps_canon s, ← dumps_canon t, h]
  exact ⟨h1, fun kvs kvs2 hnd hp => h1 _ _ (canon_obj_perm hnd hp)⟩

theorem hash_state_canonical_witness :
    hash_state (fun s => s) (State.obj [("b", State.num 2), ("a", State.num 1)]) =
    hash_state (fun s => s) (State.obj [("a", State.num 1), ("b", State.num 2)]) :=
  (hash_state_canonical (fun s => s)).2
    [("b", State.num 2), ("a", State.num 1)]
    [("a", State.num 1), ("b", State.num 2)]
    (by decide)
    (List.Perm.swap ("a", State.num 1) ("b", State.num 2) [])


theorem redact_state_obj (kvs : List (String × State)) (d : Nat) (hd : ¬ 50 < d) :
    redact_state (State.obj kvs) d = State.obj (redactPairs kvs d) := by
  unfold redact_state
  rw [if_neg hd]

theorem redact_state_arr (xs : List State) (d : Nat) (hd : ¬ 50 < d) :
    redact_state (State.arr xs) d = State.arr (redactList xs d) := by
  unfold redact_state
  rw [if_neg hd]

theorem redactPairs_eq_map : ∀ (l : List (String × State)) (d : Nat),
    redactPairs l d = l.map (fun p =>
      (p.1, if _is_secret_key p.1 then State.str REDACTED
            else redact_state p.2 (d + 1)))
  | [], _ => rfl
  | (k, v) :: rest, d => by
    rw [redactPairs, List.map_cons, redactPairs_eq_map rest d]

theorem redactList_eq_map : ∀ (l : List State) (d : Nat),
    redactList l d = l.map (fun x => redact_state x (d + 1))
  | [], _ => rfl
  | x :: rest, d => by
    rw [redactList, List.map_cons, redactList_eq_map rest d]

/-- C5: `redact_state` never fails and behaves as specified: beyond
recursion depth 50 the substructure comes back unmodified; within the
guard, a map entry whose key matches a secret-key pattern has its entire
value replaced by the marker, other entries and sequence elements recurse,
every other string value gets the fixed ordered list of secret-value
patterns applied sequentially as substring substitutions (each seeing the
previous result), and non-string non-container scalars pass through
unchanged. -/
theorem redact_state_spec :
    (∀ (s : State) (d : Nat), 50 < d → redact_state s d = s) ∧
    (∀ (kvs : List (String × State)) (d : Nat), d ≤ 50 →
      redact_state (State.obj kvs) d =
        State.obj (kvs.map (fun p =>
          (p.1, if _is_secret_key p.1 then State.str REDACTED
                else redact_state p.2 (d + 1))))) ∧
    (∀ (xs : List State) (d : Nat), d ≤ 50 →
      redact_state (State.arr xs) d =
        State.arr (xs.map (fun x => redact_state x (d + 1)))) ∧
    (∀ (s : String) (d : Nat), d ≤ 50 →
      redact_state (State.str s) d = State.str (_redact_value s)) ∧
    (∀ d : Nat, redact_state State.null d = State.null) ∧
    (∀ (b : Bool) (d : Nat), redact_state (State.bool b) d = State.bool b) ∧
    (∀ (n : Int) (d : Nat), redact_state (State.num n) d = State.num n) ∧
    (∀ s : String, _redact_value s =
      SECRET_VALUE_PATTERNS.foldl (fun result p => subAll p result) s) := by
  refine ⟨?_, ?_, ?_, ?_, ?_, ?_, ?_, fun s => rfl⟩
  · intro s d hd
    unfold redact_state
    rw [if_pos hd]
  · intro kvs d hd
    rw [redact_state_obj kvs d (by omega), redactPairs_eq_map]
  · intro xs d hd
    rw [redact_state_arr xs d (by omega), redactList_eq_map]
  · intro s d hd
    unfold redact_state
    rw [if_neg (by omega)]
  · intro d
    unfold redact_state
    split <;> rfl
  · intro b d
    unfold redact_state
    split <;> rfl
  · intro n d
    unfold redact_state
    split <;> rfl

theorem redact_state_spec_witness :
    redact_state (State.obj [("password", State.num 1),
      ("note", State.str "sk_live_abc")]) 0 =
    State.obj [("password",
        if _is_secret_key "password" then State.str REDACTED
        else redact_state (State.num 1) 1),
      ("note",
        if _is_secret_key "note" then State.str REDACTED
        else redact_state (State.str "sk_live_abc") 1)] :=
  redact_state_spec.2.1 [("password", State.num 1),
    ("note", State.str "sk_live_abc")] 0 (by decide)

theorem seqMatches_auth (r : List Char) :
    seqMatches (litsCI "auth") (String.data "auth" ++ r) = [r] := rfl

theorem reSearch_append (p : List RElem) (l2 : List Char)
    (h : (tryFrom p l2).isSome = true) :
    ∀ l1 : List Char, reSearch p (l1 ++ l2) = true
  | [] => by
    cases l2 with
    | nil => simpa [reSearch] using h
    | cons c t => simp [reSearch, h]
  | c :: t => by
    rw [List.cons_append]
    simp [reSearch, reSearch_append p l2 h t]

/-- C10: secret-key matching is an unanchored case-insensitive substring
search: any key containing "auth" anywhere matches, and in particular the
non-secret keys "author", "oauth" and "tokens_used" have their entire
values replaced by the marker. -/
theorem secret_key_substring_match :
    (∀ s1 s2 : String, _is_secret_key (s1 ++ "auth" ++ s2) = true) ∧
    _is_secret_key "author" = true ∧
    _is_secret_key "oauth" = true ∧
    _is_secret_key "tokens_used" = true ∧
    (∀ v : State, redact_state (State.obj [("author", v)]) 0 =
      State.obj [("author", State.str REDACTED)]) := by
  refine ⟨?_, by decide, by decide, by decide, ?_⟩
  · intro s1 s2
    have hmem : litsCI "auth" ∈ SECRET_KEY_PATTERNS := by
      unfold SECRET_KEY_PATTERNS
      simp only [List.mem_cons]
      exact Or.inr (Or.inr (Or.inr (Or.inr (Or.inr (Or.inl trivial)))))
    have hdata : (s1 ++ "auth" ++ s2).data =
        s1.data ++ (String.data "auth" ++ s2.data) := by
      rw [str_data_append, str_data_append, List.append_assoc]
    have htry : (tryFrom (litsCI "auth") (String.data "auth" ++ s2.data)).isSome
        = true := by
      unfold tryFrom
      rw [seqMatches_auth]
      rfl
    unfold _is_secret_key
    rw [hdata, List.any_eq_true]
    exact ⟨litsCI "auth", hmem, reSearch_append _ _ htry s1.data⟩
  · intro v
    rw [redact_state_obj _ _ (by omega), redactPairs_eq_map]
    simp [show _is_secret_key "author" = true by decide]


theorem b64Val_b64Chr : ∀ v, v < 64 → b64Val (b64Chr v) = some v := by decide

theorem b64Chr_ne_pad : ∀ v, v < 64 → ¬ b64Chr v = '=' := by decide

theorem a2b_step0 (c : Char) (rest : List Char) (v lc pads : Nat)
    (hne : ¬ c = '=') (hv : b64Val c = some v) :
    a2bBase64 (c :: rest) 0 lc pads = a2bBase64 rest 1 v 0 := by
  conv_lhs => unfold a2bBase64
  rw [if_neg hne, hv]

theorem a2b_step1 (c : Char) (rest : List Char) (v lc pads : Nat)
    (hne : ¬ c = '=') (hv : b64Val c = some v) :
    a2bBase64 (c :: rest) 1 lc pads =
      (a2bBase64 rest 2 (v % 16) 0).map (fun tail => (lc * 4 + v / 16) :: tail) := by
  conv_lhs => unfold a2bBase64
  rw [if_neg hne, hv]

theorem a2b_step2 (c : Char) (rest : List Char) (v lc pads : Nat)
    (hne : ¬ c = '=') (hv : b64Val c = some v) :
    a2bBase64 (c :: rest) 2 lc pads =
      (a2bBase64 rest 3 (v % 4) 0).map (fun tail => (lc * 16 + v / 4) :: tail) := by
  conv_lhs => unfold a2bBase64
  rw [if_neg hne, hv]

theorem a2b_step3 (c : Char) (rest : List Char) (v lc pads : Nat)
    (hne : ¬ c = '=') (hv : b64Val c = some v) :
    a2bBase64 (c :: rest) 3 lc pads =
      (a2bBase64 rest 0 0 0).map (fun tail => (lc * 64 + v) :: tail) := by
  conv_lhs => unfold a2bBase64
  rw [if_neg hne, hv]

theorem a2b_pad2_first (rest : List Char) (lc : Nat) :
    a2bBase64 ('=' :: rest) 2 lc 0 = a2bBase64 rest 2 lc 1 := by
  conv_lhs => unfold a2bBase64
  rw [if_pos rfl, if_pos (by omega), if_neg (by omega)]

theorem a2b_pad2_done (rest : List Char) (lc : Nat) :
    a2bBase64 ('=' :: rest) 2 lc 1 = some [] := by
  conv_lhs => unfold a2bBase64
  rw [if_pos rfl, if_pos (by omega), if_pos (by omega)]

theorem a2b_pad3_done (rest : List Char) (lc : Nat) :
    a2bBase64 ('=' :: rest) 3 lc 0 = some [] := by
  conv_lhs => unfold a2bBase64
  rw [if_pos rfl, if_pos (by omega), if_pos (by omega)]

theorem a2bBase64_encode : ∀ l : List Nat, (∀ b ∈ l, b < 256) →
    a2bBase64 (b64encodeBytes l) 0 0 0 = some l
  | [], _ => rfl
  | [a], h => by
    have ha : a < 256 := h a (by simp)
    simp only [b64encodeBytes]
    rw [a2b_step0 _ _ _ _ _ (b64Chr_ne_pad _ (by omega)) (b64Val_b64Chr _ (by omega)),
      a2b_step1 _ _ _ _ _ (b64Chr_ne_pad _ (by omega)) (b64Val_b64Chr _ (by omega)),
      a2b_pad2_first, a2b_pad2_done]
    show some [a / 4 * 4 + a % 4 * 16 / 16] = some [a]
    have harith : a / 4 * 4 + a % 4 * 16 / 16 = a := by omega
    rw [harith]
  | [a, b], h => by
    have ha : a < 256 := h a (by simp)
    have hb : b < 256 := h b (by simp)
    simp only [b64encodeBytes]
    rw [a2b_step0 _ _ _ _ _ (b64Chr_ne_pad _ (by omega)) (b64Val_b64Chr _ (by omega)),
      a2b_step1 _ _ _ _ _ (b64Chr_ne_pad _ (by omega)) (b64Val_b64Chr _ (by omega)),
      a2b_step2 _ _ _ _ _ (b64Chr_ne_pad _ (by omega)) (b64Val_b64Chr _ (by omega)),
      a2b_pad3_done]
    show some [a / 4 * 4 + (a % 4 * 16 + b / 16) / 16,
      (a % 4 * 16 + b / 16) % 16 * 16 + b % 16 * 4 / 4] = some [a, b]
    have h1 : a / 4 * 4 + (a % 4 * 16 + b / 16) / 16 = a := by omega
    have h2 : (a % 4 * 16 + b / 16) % 16 * 16 + b % 16 * 4 / 4 = b := by omega
    rw [h1, h2]
  | a :: b :: c :: rest, h => by
    have ha : a < 256 := h a (by simp)
    have hb : b < 256 := h b (by simp)
    have hc : c < 256 := h c (by simp)
    simp only [b64encodeBytes]
    rw [a2b_step0 _ _ _ _ _ (b64Chr_ne_pad _ (by omega)) (b64Val_b64Chr _ (by omega)),
      a2b_step1 _ _ _ _ _ (b64Chr_ne_pad _ (by omega)) (b64Val_b64Chr _ (by omega)),
      a2b_step2 _ _ _ _ _ (b64Chr_ne_pad _ (by omega)) (b64Val_b64Chr _ (by omega)),
      a2b_step3 _ _ _ _ _ (b64Chr_ne_pad _ (by omega)) (b64Val_b64Chr _ (by omega)),
      a2bBase64_encode rest (fun x hx => h x (by simp [hx]))]
    show some ([a / 4 * 4 + (a % 4 * 16 + b / 16) / 16,
      (a % 4 * 16 + b / 16) % 16 * 16 + (b % 16 * 4 + c / 64) / 4,
      (b % 16 * 4 + c / 64) % 4 * 64 + c % 64] ++ rest) = some (a :: b :: c :: rest)
    have h1 : a / 4 * 4 + (a % 4 * 16 + b / 16) / 16 = a := by omega
    have h2 : (a % 4 * 16 + b / 16) % 16 * 16 + (b % 16 * 4 + c / 64) / 4 = b := by
      omega
    have h3 : (b % 16 * 4 + c / 64) % 4 * 64 + c % 64 = c := by omega
    rw [h1, h2, h3]
    rfl

/-- Base64 round-trips on byte lists. -/
theorem b64decode_b64encode (l : List Nat) (h : ∀ b ∈ l, b < 256) :
    b64decode (b64encode l) = some l := by
  show a2bBase64 (b64encodeBytes l) 0 0 0 = some l
  exact a2bBase64_encode l h

theorem digitsAux16_lt : ∀ (fuel n : Nat), ∀ d ∈ digitsAux16 fuel n, d < 16
  | 0, n => by simp [digitsAux16]
  | fuel + 1, n => by
    intro d hd
    unfold digitsAux16 at hd
    by_cases hn : n = 0
    · rw [if_pos hn] at hd
      simp at hd
    · rw [if_neg hn] at hd
      rcases List.mem_cons.mp hd with h | h
      · omega
      · exact digitsAux16_lt fuel (n / 16) d h

theorem digitsAux16_nil (f : Nat) : digitsAux16 f 0 = [] := by
  cases f <;> simp [digitsAux16]

theorem digitsAux16_inj : ∀ (f1 n1 f2 n2 : Nat), n1 ≤ f1 → n2 ≤ f2 →
    digitsAux16 f1 n1 = digitsAux16 f2 n2 → n1 = n2 := by
  intro f1
  induction f1 with
  | zero =>
    intro n1 f2 n2 h1 h2 heq
    have hn1 : n1 = 0 := by omega
    subst hn1
    rw [digitsAux16_nil] at heq
    by_contra hne
    have hn2 : ¬ n2 = 0 := fun hz => hne (by omega)
    cases f2 with
    | zero => omega
    | succ g2 =>
      unfold digitsAux16 at heq
      rw [if_neg hn2] at heq
      simp at heq
  | succ g ih =>
    intro n1 f2 n2 h1 h2 heq
    by_cases hz : n1 = 0
    · subst hz
      rw [digitsAux16_nil] at heq
      by_contra hne
      have hn2 : ¬ n2 = 0 := fun hzz => hne (by omega)
      cases f2 with
      | zero => omega
      | succ g2 =>
        unfold digitsAux16 at heq
        rw [if_neg hn2] at heq
        simp at heq
    · by_cases hz2 : n2 = 0
      · subst hz2
        rw [digitsAux16_nil] at heq
        unfold digitsAux16 at heq
        rw [if_neg hz] at heq
        simp at heq
      · cases f2 with
        | zero => omega
        | succ g2 =>
          unfold digitsAux16 at heq
          rw [if_neg hz, if_neg hz2] at heq
          injection heq with hh ht
          have := ih (n1 / 16) g2 (n2 / 16) (by omega) (by omega) ht
          omega

theorem sep_split : ∀ (xs ys u v : List Nat),
    16 ∉ xs → 16 ∉ ys → xs ++ 16 :: u = ys ++ 16 :: v → xs = ys ∧ u = v
  | [], [], u, v, _, _, h => by
    simp at h
    exact ⟨rfl, h⟩
  | [], y :: ys, u, v, _, hy, h => by
    simp at h
    exact absurd (h.1 ▸ List.mem_cons_self y ys) hy
  | x :: xs, [], u, v, hx, _, h => by
    simp at h
    have hx16 : x = 16 := h.1
    exact absurd (hx16 ▸ List.mem_cons_self x xs) hx
  | x :: xs, y :: ys, u, v, hx, hy, h => by
    simp only [List.cons_append, List.cons.injEq] at h
    obtain ⟨hxy, ht⟩ := h
    simp only [List.mem_cons, not_or] at hx hy
    have hr := sep_split xs ys u v hx.2 hy.2 ht
    exact ⟨by rw [hxy, hr.1], hr.2⟩

theorem strEnc_aux_inj : ∀ l1 l2 : List Char,
    l1.flatMap (fun c => digitsAux16 c.toNat c.toNat ++ [16]) =
      l2.flatMap (fun c => digitsAux16 c.toNat c.toNat ++ [16]) → l1 = l2
  | [], [], _ => rfl
  | [], c :: l2, h => by
    have hl := congrArg List.length h
    simp at hl
    omega
  | c :: l1, [], h => by
    have hl := congrArg List.length h
    simp at hl
  | c1 :: l1, c2 :: l2, h => by
    rw [List.flatMap_cons, List.flatMap_cons, List.append_assoc,
      List.append_assoc] at h
    have hno1 : 16 ∉ digitsAux16 c1.toNat c1.toNat := fun hm =>
      absurd (digitsAux16_lt _ _ 16 hm) (by omega)
    have hno2 : 16 ∉ digitsAux16 c2.toNat c2.toNat := fun hm =>
      absurd (digitsAux16_lt _ _ 16 hm) (by omega)
    obtain ⟨hd, ht⟩ := sep_split _ _ _ _ hno1 hno2 h
    have hcn : c1.toNat = c2.toNat :=
      digitsAux16_inj c1.toNat c1.toNat c2.toNat c2.toNat (le_refl _) (le_refl _) hd
    have hc : c1 = c2 := by
      rw [← Char.ofNat_toNat c1, ← Char.ofNat_toNat c2, hcn]
    rw [hc, strEnc_aux_inj l1 l2 ht]

theorem strEnc_inj {m1 m2 : String} (h : strEnc m1 = strEnc m2) : m1 = m2 :=
  str_ext (strEnc_aux_inj _ _ h)

theorem toyB_complete (sk : List Nat) (m : String) :
    toyB.verify (toyB.pubOf sk) m (toyB.sign sk m) = true := by
  simp [toyB]

theorem toyB_msg (sk : List Nat) (m m2 : String)
    (h : toyB.verify (toyB.pubOf sk) m2 (toyB.sign sk m) = true) : m2 = m := by
  simp only [toyB] at h
  have h2 := eq_of_beq h
  exact (strEnc_inj (List.append_cancel_left h2)).symm

theorem toyB_sig (sk : List Nat) (m : String) (s : List Nat)
    (h : toyB.verify (toyB.pubOf sk) m s = true) : s = toyB.sign sk m := by
  simp only [toyB] at h ⊢
  exact eq_of_beq h

theorem toyB_key (sk : List Nat) (m : String) (p : List Nat)
    (h : toyB.verify p m (toyB.sign sk m) = true) : p = toyB.pubOf sk := by
  simp only [toyB] at h ⊢
  exact (List.append_cancel_right (eq_of_beq h)).symm

theorem toyB_sbounds (sk : List Nat) (m : String) :
    ∀ b2 ∈ toyB.sign sk m, b2 < 256 := by
  intro b2 hb
  simp only [toyB, strEnc, List.mem_append] at hb
  rcases hb with hb | hb
  · obtain ⟨x, _, hx⟩ := List.mem_map.mp hb
    omega
  · obtain ⟨c, _, hc⟩ := List.mem_flatMap.mp hb
    rcases List.mem_append.mp hc with hd | hd
    · have := digitsAux16_lt _ _ b2 hd
      omega
    · have : b2 = 16 := by simpa using hd
      omega

theorem toyB_pbounds (sk : List Nat) : ∀ b2 ∈ toyB.pubOf sk, b2 < 256 := by
  intro b2 hb
  simp only [toyB] at hb
  obtain ⟨x, _, hx⟩ := List.mem_map.mp hb
  omega


theorem verify_signature_eq (B : SigBackend) (e : XYEntry) (ss ps : String)
    (hs : e.signature = some ss) (hp : e.public_key = some ps) :
    verify_signature B e =
      (match b64decode ss, b64decode ps with
       | some s, some p => B.verify p (sigMessage e) s
       | _, _ => false) := by
  unfold verify_signature
  rw [hs, hp]

/-- C6 (amended): with an Ed25519-style backend — complete, message-binding,
signature-unique and key-binding, producing byte-valued signatures and
keys — `sign_entry` then `verify_signature` is `true`; mutating any of
`x`, `operation`, `y`, `xy` afterwards gives `false`; replacing the stored
signature by any string that does not base64-decode to the signature bytes
gives `false` (a flip confined to the unused trailing bits of the final
base64 group decodes identically and is the one exception to the
byte-flip clause, see the counterexample); and swapping in a different
public key gives `false`. -/
theorem sign_entry_binding (B : SigBackend)
    (hcomplete : ∀ sk m, B.verify (B.pubOf sk) m (B.sign sk m) = true)
    (hmsg : ∀ sk m m2, B.verify (B.pubOf sk) m2 (B.sign sk m) = true → m2 = m)
    (hsig : ∀ sk m s, B.verify (B.pubOf sk) m s = true → s = B.sign sk m)
    (hkey : ∀ sk m p, B.verify p m (B.sign sk m) = true → p = B.pubOf sk)
    (hsbytes : ∀ sk m, ∀ b2 ∈ B.sign sk m, b2 < 256)
    (hpbytes : ∀ sk, ∀ b2 ∈ B.pubOf sk, b2 < 256)
    (e : XYEntry) (sk : List Nat) (sid : Option String) :
    verify_signature B (sign_entry B e sk sid) = true ∧
    (∀ v, v ≠ e.x →
      verify_signature B { sign_entry B e sk sid with x := v } = false) ∧
    (∀ v, v ≠ e.operation →
      verify_signature B { sign_entry B e sk sid with operation := v } = false) ∧
    (∀ v, v ≠ e.y →
      verify_signature B { sign_entry B e sk sid with y := v } = false) ∧
    (∀ v, v ≠ e.xy →
      verify_signature B { sign_entry B e sk sid with xy := v } = false) ∧
    (∀ s2, b64decode s2 ≠ some (B.sign sk (sigMessage e)) →
      verify_signature B { sign_entry B e sk sid with signature := some s2 }
        = false) ∧
    (∀ p2, (∀ b2 ∈ p2, b2 < 256) → p2 ≠ B.pubOf sk →
      verify_signature B { sign_entry B e sk sid with
        public_key := some (b64encode p2) } = false) := by
  have hdec1 : b64decode (b64encode (B.sign sk (sigMessage e))) =
      some (B.sign sk (sigMessage e)) :=
    b64decode_b64encode _ (hsbytes sk (sigMessage e))
  have hdec2 : b64decode (b64encode (B.pubOf sk)) = some (B.pubOf sk) :=
    b64decode_b64encode _ (hpbytes sk)
  refine ⟨?_, ?_, ?_, ?_, ?_, ?_, ?_⟩
  · rw [verify_signature_eq B _ _ _ rfl rfl, hdec1, hdec2]
    exact hcomplete sk (sigMessage e)
  · intro v hv
    rw [verify_signature_eq B _ _ _ rfl rfl, hdec1, hdec2]
    show B.verify (B.pubOf sk)
      (v ++ ":" ++ e.operation ++ ":" ++ e.y ++ ":" ++ e.xy)
      (B.sign sk (sigMessage e)) = false
    cases hv2 : B.verify (B.pubOf sk)
        (v ++ ":" ++ e.operation ++ ":" ++ e.y ++ ":" ++ e.xy)
        (B.sign sk (sigMessage e)) with
    | false => rfl
    | true => exact absurd (msgSlot1 (hmsg _ _ _ hv2)) hv
  · intro v hv
    rw [verify_signature_eq B _ _ _ rfl rfl, hdec1, hdec2]
    show B.verify (B.pubOf sk)
      (e.x ++ ":" ++ v ++ ":" ++ e.y ++ ":" ++ e.xy)
      (B.sign sk (sigMessage e)) = false
    cases hv2 : B.verify (B.pubOf sk)
        (e.x ++ ":" ++ v ++ ":" ++ e.y ++ ":" ++ e.xy)
        (B.sign sk (sigMessage e)) with
    | false => rfl
    | true => exact absurd (msgSlot2 (hmsg _ _ _ hv2)) hv
  · intro v hv
    rw [verify_signature_eq B _ _ _ rfl rfl, hdec1, hdec2]
    show B.verify (B.pubOf sk)
      (e.x ++ ":" ++ e.operation ++ ":" ++ v ++ ":" ++ e.xy)
      (B.sign sk (sigMessage e)) = false
    cases hv2 : B.verify (B.pubOf sk)
        (e.x ++ ":" ++ e.operation ++ ":" ++ v ++ ":" ++ e.xy)
        (B.sign sk (sigMessage e)) with
    | false => rfl
    | true => exact absurd (msgSlot3 (hmsg _ _ _ hv2)) hv
  · intro v hv
    rw [verify_signature_eq B _ _ _ rfl rfl, hdec1, hdec2]
    show B.verify (B.pubOf sk)
      (e.x ++ ":" ++ e.operation ++ ":" ++ e.y ++ ":" ++ v)
      (B.sign sk (sigMessage e)) = false
    cases hv2 : B.verify (B.pubOf sk)
        (e.x ++ ":" ++ e.operation ++ ":" ++ e.y ++ ":" ++ v)
        (B.sign sk (sigMessage e)) with
    | false => rfl
    | true => exact absurd (msgSlot4 (hmsg _ _ _ hv2)) hv
  · intro s2 hs2
    rw [verify_signature_eq B _ s2 _ rfl rfl, hdec2]
    cases hdc : b64decode s2 with
    | none => rfl
    | some sb =>
      show B.verify (B.pubOf sk) (sigMessage e) sb = false
      cases hv2 : B.verify (B.pubOf sk) (sigMessage e) sb with
      | false => rfl
      | true =>
        rw [hsig _ _ _ hv2] at hdc
        exact absurd hdc hs2
  · intro p2 hp2 hne
    rw [verify_signature_eq B _ _ _ rfl rfl, hdec1, b64decode_b64encode p2 hp2]
    show B.verify p2 (sigMessage e) (B.sign sk (sigMessage e)) = false
    cases hv2 : B.verify p2 (sigMessage e) (B.sign sk (sigMessage e)) with
    | false => rfl
    | true => exact absurd (hkey _ _ _ hv2) hne

theorem sign_entry_binding_witness :
    verify_signature toyB
      (sign_entry toyB (sampleEntry 0 "1" "op" "x" "y" "xyv") [1, 2] none)
      = true :=
  (sign_entry_binding toyB toyB_complete toyB_msg toyB_sig toyB_key
    toyB_sbounds toyB_pbounds (sampleEntry 0 "1" "op" "x" "y" "xyv")
    [1, 2] none).1

/-- C6 counterexample to the literal byte-flip clause: the stored signature
string of a signed entry, with one character changed — inside the unused
trailing bits of the final base64 group — still verifies, because Python
`b64decode` ignores those bits, so the flipped string decodes to the same
signature bytes. -/
theorem signature_b64_flip_still_verifies :
    (sign_entry toyB (sampleEntry 0 "1" "b" "a" "c" "d\t\t") [] none).signature
      = some "AQYQCgMQAgYQCgMQAwYQCgMQBAYQCRAJEA==" ∧
    "AQYQCgMQAgYQCgMQAwYQCgMQBAYQCRAJEB==" ≠
      "AQYQCgMQAgYQCgMQAwYQCgMQBAYQCRAJEA==" ∧
    ("AQYQCgMQAgYQCgMQAwYQCgMQBAYQCRAJEB==".data.zip
      "AQYQCgMQAgYQCgMQAwYQCgMQBAYQCRAJEA==".data).countP
        (fun p => p.1 != p.2) = 1 ∧
    "AQYQCgMQAgYQCgMQAwYQCgMQBAYQCRAJEB==".length =
      "AQYQCgMQAgYQCgMQAwYQCgMQBAYQCRAJEA==".length ∧
    verify_signature toyB
      { sign_entry toyB (sampleEntry 0 "1" "b" "a" "c" "d\t\t") [] none with
        signature := some "AQYQCgMQAgYQCgMQAwYQCgMQBAYQCRAJEB==" } = true :=
  ⟨rfl, by decide, by decide, by decide, by decide⟩


theorem verifySigsAux_cons (B : SigBackend) (i : Nat) (e : XYEntry)
    (rest : List XYEntry) :
    verifySigsAux B i (e :: rest) =
      if !e.signature.isSome || verify_signature B e then
        verifySigsAux B (i + 1) rest
      else (false, some i) := by
  cases hs : e.signature with
  | none => simp [verifySigsAux, hs]
  | some s =>
    by_cases hv : verify_signature B e = true
    · simp [verifySigsAux, hs, hv]
    · have hv2 : verify_signature B e = false := by simpa using hv
      simp [verifySigsAux, hs, hv2]

theorem sigCheckAt_shift (B : SigBackend) (e : XYEntry) (rest : List XYEntry)
    (k : Nat) : sigCheckAt B (e :: rest) (k + 1) = sigCheckAt B rest k := by
  simp [sigCheckAt]

theorem sigCheckAt_zero (B : SigBackend) (e : XYEntry) (rest : List XYEntry) :
    sigCheckAt B (e :: rest) 0 = (!e.signature.isSome || verify_signature B e) := by
  simp [sigCheckAt]

theorem verifySigsAux_spec (B : SigBackend) :
    ∀ (es : List XYEntry) (i : Nat),
      verifySigsAux B i es =
        match (List.range es.length).find? (fun k => ! sigCheckAt B es k) with
        | none => (true, none)
        | some k => (false, some (i + k))
  | [], _ => rfl
  | e :: rest, i => by
    rw [verifySigsAux_cons, List.length_cons, List.range_succ_eq_map]
    by_cases hc : (!e.signature.isSome || verify_signature B e) = true
    · have hc0 : (! sigCheckAt B (e :: rest) 0) = false := by
        rw [sigCheckAt_zero, hc]
        rfl
      rw [if_pos hc, verifySigsAux_spec B rest (i + 1)]
      rw [List.find?_cons_of_neg _ (by simp [hc0]), find?_map_succ]
      have hsh : (fun k => ! sigCheckAt B (e :: rest) (k + 1)) =
          (fun k => ! sigCheckAt B rest k) := by
        funext k
        rw [sigCheckAt_shift]
      rw [hsh]
      cases (List.range rest.length).find? (fun k => ! sigCheckAt B rest k) with
      | none => rfl
      | some k =>
        have harith : i + 1 + k = i + (k + 1) := by omega
        simp [harith]
    · have hc2 : (!e.signature.isSome || verify_signature B e) = false := by
        rw [Bool.not_eq_true] at hc
        exact hc
      have hc0 : (! sigCheckAt B (e :: rest) 0) = true := by
        rw [sigCheckAt_zero, hc2]
        rfl
      have hfind : List.find? (fun k => ! sigCheckAt B (e :: rest) k)
          (0 :: List.map Nat.succ (List.range rest.length)) = some 0 := by
        simp [List.find?, hc0]
      rw [if_neg hc, hfind]
      simp

/-- C7: `verify_signature` returns `false` — it never raises — when the
signature or public key is absent, and equally when either stored field
fails to base64-decode; and `verify_signatures` skips unsigned entries and
breaks at the earliest signed entry whose signature fails to verify. -/
theorem verify_signature_absorbs_failures :
    (∀ (B : SigBackend) (e : XYEntry), e.signature = none →
      verify_signature B e = false) ∧
    (∀ (B : SigBackend) (e : XYEntry), e.public_key = none →
      verify_signature B e = false) ∧
    (∀ (B : SigBackend) (e : XYEntry) (s p : String), e.signature = some s →
      e.public_key = some p → b64decode s = none ∨ b64decode p = none →
      verify_signature B e = false) ∧
    (∀ (B : SigBackend) (c : XYChain),
      XYChain.verify_signatures B c =
        match firstSigBreak B c.entries with
        | none => (true, none)
        | some i => (false, some i)) := by
  refine ⟨?_, ?_, ?_, ?_⟩
  · intro B e h
    unfold verify_signature
    rw [h]
  · intro B e h
    unfold verify_signature
    rw [h]
    cases hs : e.signature <;> rfl
  · intro B e s p hs hp hbad
    rw [verify_signature_eq B e s p hs hp]
    rcases hbad with hbad | hbad
    · rw [hbad]
    · rw [hbad]
      cases b64decode s <;> rfl
  · intro B c
    show verifySigsAux B 0 c.entries = _
    rw [verifySigsAux_spec B c.entries 0]
    unfold firstSigBreak
    cases (List.range c.entries.length).find? (fun k => ! sigCheckAt B c.entries k) with
    | none => rfl
    | some k => simp

theorem verify_signature_absorbs_failures_witness :
    verify_signature toyB (sampleEntry 0 "1" "op" "x" "y" "z") = false :=
  verify_signature_absorbs_failures.1 toyB (sampleEntry 0 "1" "op" "x" "y" "z") rfl

end XYCore
